import Mathlib

/-!
Verification development for the `lili` bytecode editor
(`src/lili/__main__.py`).  The Python source is shallowly embedded:

* text is modelled as `List Char` (`PyStr`);
* the constant-value universe is modelled by `Value`, covering the
  hashable marshallable values the claims exercise (None, bool, int,
  str, Ellipsis, StopIteration).  CPython's salted string hashes are
  modelled as injective, which matches `hash(a) == hash(b) ↔ a = b`
  for strings in any single interpreter run up to SipHash collisions;
  `int`/`bool` hashing is modelled exactly (modular reduction by
  2^61 - 1, sign preserved, -1 mapped to -2);
* the `opcode` stdlib tables are a parameter (`OpTable`) together with
  a concrete CPython 3.10 instantiation (`py310`) used for witnesses;
* the curses rendering layer, which never feeds back into the
  assembler state, is out of scope, as are floating-point and complex
  constants (no shallow embedding of IEEE semantics is attempted);
* recursions that are not structural in the source are given explicit
  fuel so that every definition is executable by the kernel; each
  entry point supplies fuel that is provably sufficient.
-/

namespace Lili

/-- Python text is modelled as a list of characters. -/
abbrev PyStr := List Char

/-- Build a `PyStr` from a Lean string literal. -/
def str (s : String) : PyStr := s.data

/-- Characters matched by the regex class `\s` (and stripped by
`str.strip()` for ASCII text). -/
def isPyWS (c : Char) : Bool :=
  c = ' ' || c = '\t' || c = '\n' || c = '\r' || c = '\x0b' || c = '\x0c'

/-- Python `str.lstrip()` (no arguments). -/
def pyLstrip (s : PyStr) : PyStr := s.dropWhile isPyWS

/-- Python `str.rstrip()` (no arguments). -/
def pyRstrip (s : PyStr) : PyStr := (s.reverse.dropWhile isPyWS).reverse

/-- Python `str.strip()` (no arguments). -/
def pyStrip (s : PyStr) : PyStr := pyRstrip (pyLstrip s)

/-- Python `str.lstrip(" \t")`, as used by `evaluate`. -/
def pyLstripST (s : PyStr) : PyStr := s.dropWhile (fun c => c = ' ' || c = '\t')

/-- Characters matched by the regex class `[A-Z_]` (codepoints 65-90
and 95). -/
def isUpperU (c : Char) : Bool := (65 ≤ c.toNat && c.toNat ≤ 90) || c = '_'

/-- Decimal digit test (codepoints 48-57). -/
def isDigitC (c : Char) : Bool := 48 ≤ c.toNat && c.toNat ≤ 57

/-! ## The value universe and CPython hashing -/

/-- Constant values, mirroring the marshallable objects `evaluate` can
produce in the fragment the claims exercise.  `vstr` also represents
the `"JO BIDEN !!"` opaque sentinel returned for `%`-prefixed input. -/
inductive Value where
  | vnone : Value
  | vbool : Bool → Value
  | vint : Int → Value
  | vstr : PyStr → Value
  | vellipsis : Value
  | vstop : Value
deriving DecidableEq

/-- The modulus 2^61 - 1 used by CPython's numeric hash. -/
def pyHashModulus : Nat := 2305843009213693951

/-- CPython `hash` on an `int`: reduce the absolute value modulo
2^61 - 1, reapply the sign, and map the reserved value -1 to -2. -/
def intHash (n : Int) : Int :=
  let h : Int := if 0 ≤ n then ((n.toNat % pyHashModulus : Nat) : Int)
    else -(((-n).toNat % pyHashModulus : Nat) : Int)
  if h = -1 then -2 else h

/-- The `eq` helper of the source (lines 77-85): identity, or exact
type match plus hash equality; unhashable operands compare unequal.
Identity of two distinct evaluator results only occurs for interned
atoms, for which it coincides with type-plus-hash equality, so it is
subsumed by the per-constructor cases.  `hash` on `bool` is 0/1, on
`int` it is `intHash`, and on `str` it separates distinct strings. -/
def eq (a b : Value) : Bool :=
  match a, b with
  | .vnone, .vnone => true
  | .vbool x, .vbool y => x = y
  | .vint x, .vint y => intHash x = intHash y
  | .vstr x, .vstr y => x = y
  | .vellipsis, .vellipsis => true
  | .vstop, .vstop => true
  | _, _ => false

/-- The `idx` helper of the source (lines 88-92): index of the first
entry `eq`-equal to `x`, or -1. -/
def idx (s : List Value) (x : Value) : Int :=
  go s 0
where
  go : List Value → Nat → Int
    | [], _ => -1
    | y :: ys, i => if eq x y then (i : Int) else go ys (i + 1)

/-- The constant-pool insertion of `update_code` (lines 322-325):
look up the value with `idx`; on -1 append it; the operand is the
resulting index. -/
def addConst (pool : List Value) (x : Value) : List Value × Nat :=
  let i := idx pool x
  if i = -1 then (pool ++ [x], pool.length) else (pool, i.toNat)

/-! ## Opcode tables -/

/-- Which symbol pool a symbol-reference opcode addresses. -/
inductive ScopeSel where
  | names : ScopeSel
  | varnames : ScopeSel
  | freevars : ScopeSel
deriving DecidableEq

/-- The slice of the stdlib `opcode` module the editor consults.
`opname` returns `"<i>"`-style placeholders for undefined opcodes,
like the real `opcode.opname` list. -/
structure OpTable where
  opmap : PyStr → Option Nat
  opname : Nat → PyStr
  hasconst : List Nat
  hasname : List Nat
  haslocal : List Nat
  hasfree : List Nat
  haveArgument : Nat

/-- The `get_scope` helper (lines 68-74): `hasname`, then `haslocal`,
then `hasfree`, else `None`. -/
def getScope (tbl : OpTable) (op : Nat) : Option ScopeSel :=
  if op ∈ tbl.hasname then some .names
  else if op ∈ tbl.haslocal then some .varnames
  else if op ∈ tbl.hasfree then some .freevars
  else none

/-- Opcode-name pairs of the CPython 3.10 opcode table (the subset
exercised by the development; the editor only ever looks names up, so
a faithful subset of the external stdlib table suffices). -/
def py310Pairs : List (PyStr × Nat) :=
  [ (str "POP_TOP", 1), (str "ROT_TWO", 2), (str "DUP_TOP", 4),
    (str "NOP", 9), (str "UNARY_NEGATIVE", 11), (str "BINARY_ADD", 23),
    (str "INPLACE_POWER", 67), (str "GET_ITER", 68),
    (str "RETURN_VALUE", 83), (str "STORE_NAME", 90),
    (str "DELETE_NAME", 91), (str "FOR_ITER", 93),
    (str "STORE_ATTR", 95), (str "STORE_GLOBAL", 97),
    (str "LOAD_CONST", 100), (str "LOAD_NAME", 101),
    (str "BUILD_TUPLE", 102), (str "LOAD_ATTR", 106),
    (str "COMPARE_OP", 107), (str "JUMP_FORWARD", 110),
    (str "JUMP_ABSOLUTE", 113), (str "POP_JUMP_IF_FALSE", 114),
    (str "LOAD_GLOBAL", 116), (str "LOAD_FAST", 124),
    (str "STORE_FAST", 125), (str "DELETE_FAST", 126),
    (str "LOAD_CLOSURE", 135), (str "LOAD_DEREF", 136),
    (str "STORE_DEREF", 137), (str "CALL_FUNCTION", 131),
    (str "MAKE_FUNCTION", 132), (str "LOAD_METHOD", 160),
    (str "EXTENDED_ARG", 144) ]

/-- Name lookup in the concrete table (`opcode.opmap.get`). -/
def py310Opmap (s : PyStr) : Option Nat :=
  (py310Pairs.find? (fun p => p.1 = s)).map Prod.snd

/-- Reverse lookup (`opcode.opname[i]`, with the `"<i>"` filler the
stdlib uses for undefined opcodes, rendered without digits here since
no claim reads filler names). -/
def py310Opname (n : Nat) : PyStr :=
  match py310Pairs.find? (fun p => p.2 = n) with
  | some p => p.1
  | none => str "<invalid>"

/-- The CPython 3.10 opcode table instance. -/
def py310 : OpTable :=
  { opmap := py310Opmap
    opname := py310Opname
    hasconst := [100]
    hasname := [90, 91, 95, 96, 97, 98, 101, 106, 108, 109, 116, 160]
    haslocal := [124, 125, 126]
    hasfree := [135, 136, 137, 138]
    haveArgument := 90 }

/-! ## Tokens and the line tokenizer (`Editor.parse`, lines 225-271) -/

/-- Token kinds of the source (`sect` stands for the `"section"` kind,
renamed because `section` is a Lean keyword). -/
inductive TokKind where
  | sect
  | op
  | field
  | name
  | const
  | comment
  | unknown
deriving DecidableEq

/-- The `Token` namedtuple. -/
structure Token where
  kind : TokKind
  value : PyStr
deriving DecidableEq

/-- Quote characters opening a string literal. -/
def isStrQuote (c : Char) : Bool := c = '\'' || c = '"'

/-- String-literal prefix letters accepted by `tokenize.String`. -/
def isStrPfx (c : Char) : Bool :=
  c = 'b' || c = 'B' || c = 'r' || c = 'R' || c = 'u' || c = 'U' || c = 'f' || c = 'F'

/-- Scan a single-line quoted literal body up to the closing quote
`q`, keeping escape pairs intact; returns the consumed characters
(closing quote included) and the remainder. -/
def strScan (q : Char) : List Char → Option (List Char × List Char)
  | [] => none
  | '\\' :: c :: rest => (strScan q rest).map (fun p => ('\\' :: c :: p.1, p.2))
  | c :: rest =>
    if c = q then some ([c], rest)
    else (strScan q rest).map (fun p => (c :: p.1, p.2))

/-- Model of the `tokenize.String` regex, restricted to single-line
literals (triple-quoted forms are not modelled; no claim uses them).
On input without a quoted prefix it fails, which is all the assembler
round trip relies on. -/
def stringMatch (s : List Char) : Option (List Char × List Char) :=
  let (pfx, rest) := s.span isStrPfx
  if pfx.length ≤ 2 then
    match rest with
    | q :: rest2 =>
      if isStrQuote q then
        match strScan q rest2 with
        | some (body, rest3) => some (pfx ++ q :: body, rest3)
        | none => none
      else none
    | [] => none
  else none

/-- Hexadecimal digit test. -/
def isHexDigitC (c : Char) : Bool :=
  isDigitC c || ('a' ≤ c && c ≤ 'f') || ('A' ≤ c && c ≤ 'F')

/-- Octal digit test. -/
def isOctDigitC (c : Char) : Bool := '0' ≤ c && c ≤ '7'

/-- Binary digit test. -/
def isBinDigitC (c : Char) : Bool := c = '0' || c = '1'

/-- Greedy scan for a `(?:_?d)*` tail of an integer literal: consume
an optional underscore followed by a `p`-digit, as long as possible. -/
def digitRun (p : Char → Bool) : List Char → List Char × List Char
  | [] => ([], [])
  | c :: rest =>
    if c = '_' then
      match rest with
      | [] => ([], c :: rest)
      | c2 :: rest2 =>
        if p c2 then
          let (a, b) := digitRun p rest2
          ('_' :: c2 :: a, b)
        else ([], c :: rest)
    else if p c then
      let (a, b) := digitRun p rest
      (c :: a, b)
    else ([], c :: rest)

/-- Model of the `tokenize.Intnumber` regex
(`Hexnumber|Binnumber|Octnumber|Decnumber`, leftmost greedy; a failed
prefixed form falls back to the `Decnumber` match of the bare `0`). -/
def intnumberMatch (s : List Char) : Option (List Char × List Char) :=
  match s with
  | [] => none
  | c :: rest =>
    if c = '0' then
      match rest with
      | [] => some (['0'], [])
      | c2 :: rest2 =>
        if c2 = 'x' || c2 = 'X' then
          match digitRun isHexDigitC rest2 with
          | ([], _) => some (['0'], c2 :: rest2)
          | (ds, r) => some ('0' :: c2 :: ds, r)
        else if c2 = 'b' || c2 = 'B' then
          match digitRun isBinDigitC rest2 with
          | ([], _) => some (['0'], c2 :: rest2)
          | (ds, r) => some ('0' :: c2 :: ds, r)
        else if c2 = 'o' || c2 = 'O' then
          match digitRun isOctDigitC rest2 with
          | ([], _) => some (['0'], c2 :: rest2)
          | (ds, r) => some ('0' :: c2 :: ds, r)
        else
          let (ds, r) := digitRun (fun d => d = '0') (c2 :: rest2)
          some ('0' :: ds, r)
    else if 49 ≤ c.toNat && c.toNat ≤ 57 then
      let (ds, r) := digitRun isDigitC rest
      some (c :: ds, r)
    else none

/-- Split at the last `'#'`: the greedy `.*(?=#)|.*` fallback for an
`@` operand.  Returns the matched prefix and the remainder (which is
empty or begins with `'#'`). -/
def lastSplitHash (s : List Char) : List Char × List Char :=
  match s.reverse.dropWhile (fun c => c ≠ '#') with
  | [] => (s, [])
  | _ :: t => (t.reverse, s.drop t.length)

/-- Head-is-whitespace test. -/
def headIsWS : List Char → Bool
  | [] => false
  | c :: _ => isPyWS c

/-- One body line scanned left to right (the `while p < len(ln)` loop
of `Editor.parse`, lines 242-269).  Every iteration consumes at least
one character except the empty `@`-operand, which is handled inline,
so fuel `length + 1` is sufficient. -/
def tokenizeAux : Nat → List Char → List Token
  | 0, _ => []
  | _ + 1, [] => []
  | fuel + 1, c :: cs =>
    if c = '#' then [⟨.comment, c :: cs⟩]
    else
      let (run, rest1) := (c :: cs).span isUpperU
      if run ≠ [] && (rest1.isEmpty || headIsWS rest1) then
        let (sp, rest2) := rest1.span isPyWS
        ⟨.name, run ++ sp⟩ :: tokenizeAux fuel rest2
      else if c = '@' then
        let (sp, rest1) := cs.span isPyWS
        match stringMatch rest1 with
        | some (lit, rest2) => ⟨.op, '@' :: sp⟩ :: ⟨.const, lit⟩ :: tokenizeAux fuel rest2
        | none =>
          let (cst, rest2) := lastSplitHash rest1
          if cst.isEmpty then
            ⟨.op, '@' :: sp⟩ :: ⟨.const, []⟩ ::
              (match rest2 with
               | [] => []
               | l => [⟨.comment, l⟩])
          else ⟨.op, '@' :: sp⟩ :: ⟨.const, cst⟩ :: tokenizeAux fuel rest2
      else if c = '%' then
        let (sp, rest1) := cs.span isPyWS
        match intnumberMatch rest1 with
        | some (num, rest2) => ⟨.op, '%' :: sp⟩ :: ⟨.const, num⟩ :: tokenizeAux fuel rest2
        | none => ⟨.op, '%' :: sp⟩ :: tokenizeAux fuel rest1
      else [⟨.unknown, c :: cs⟩]

/-- Tokenize one body line. -/
def tokenizeBody (s : PyStr) : List Token := tokenizeAux (s.length + 1) s

/-- Model of the header regex `([A-Z_]+):(.*)?`: an anchored match
yields the uppercase run and the text after the colon. -/
def sectionMatch (ln : PyStr) : Option (PyStr × PyStr) :=
  let (run, rest) := ln.span isUpperU
  match rest with
  | ':' :: rest2 => if run.isEmpty then none else some (run, rest2)
  | _ => none

/-- Python `ln.startswith((" ", "\t"))`. -/
def startsIndent : PyStr → Bool
  | [] => false
  | c :: _ => c = ' ' || c = '\t'

/-- The header loop of `Editor.parse` (lines 228-239): tokenize
declaration sections and their indented field lines, stopping at the
first body line; returns the parsed header lines and `body_pos`. -/
def headerScan : List PyStr → Nat → Nat → List (List Token) × Nat
  | [], _, bodyPos => ([], bodyPos)
  | ln :: rest, i, bodyPos =>
    match sectionMatch ln with
    | some (sec, after) =>
      let toks := ⟨TokKind.sect, sec⟩ :: ⟨.op, str ":"⟩ ::
        (if after.isEmpty then [] else [⟨.field, after⟩])
      let (ps, bp) := headerScan rest (i + 1) (i + 1)
      (toks :: ps, bp)
    | none =>
      if bodyPos ≠ 0 && startsIndent ln then
        let (ps, bp) := headerScan rest (i + 1) (bodyPos + 1)
        ([⟨.field, ln⟩] :: ps, bp)
      else ([], bodyPos)

/-- `Editor.parse`: header lines, then every line from `body_pos`
onward tokenized as a body line. -/
def parse (src : List PyStr) : List (List Token) :=
  let (hdr, bodyPos) := headerScan src 0 0
  hdr ++ (src.drop bodyPos).map tokenizeBody

/-! ## Section extraction (`Editor.update_code`, lines 275-296) -/

/-- The `sections` dict: an insertion-ordered association list. -/
abbrev SecMap := List (PyStr × List PyStr)

/-- Dict update: replace the value of an existing key in place, else
append a new entry. -/
def setSec (m : SecMap) (k : PyStr) (v : List PyStr) : SecMap :=
  match m with
  | [] => [(k, v)]
  | (k', v') :: rest => if k' = k then (k, v) :: rest else (k', v') :: setSec rest k v

/-- Dict lookup. -/
def lookupSec (m : SecMap) (k : PyStr) : Option (List PyStr) :=
  (m.find? (fun p => p.1 = k)).map Prod.snd

/-- Python `str.removesuffix`. -/
def pyRemoveSuffix (s suf : PyStr) : PyStr :=
  if suf.isSuffixOf s then s.take (s.length - suf.length) else s

/-- The inner `while` of the extractor: consume consecutive parsed
lines whose first token is a `field`, returning the left-stripped
field values, the remaining parsed lines and the number consumed. -/
def takeFields : List (List Token) → List PyStr × List (List Token) × Nat
  | (⟨TokKind.field, v⟩ :: _) :: rest =>
    let (fs, rest', n) := takeFields rest
    (pyLstrip v :: fs, rest', n + 1)
  | l => ([], l, 0)

/-- The section-extraction loop (lines 277-296).  A section carrying
an inline value records that single entry and stops the whole loop
(the `break` on line 287); running out of parsed lines mirrors the
caught `IndexError`.  Fuel `parsed.length + 1` is sufficient since
every step consumes at least one parsed line. -/
def extractSections : Nat → List (List Token) → Nat → SecMap → SecMap × Nat
  | 0, _, i, m => (m, i)
  | _ + 1, [], i, m => (m, i)
  | fuel + 1, toks :: rest, i, m =>
    match toks with
    | ⟨TokKind.sect, v⟩ :: _ =>
      let sec := pyRemoveSuffix v (str ":")
      if h : 2 < toks.length then
        (setSec m sec [pyLstrip (toks.get ⟨2, h⟩).value], i + 1)
      else
        let (fs, rest', n) := takeFields rest
        extractSections fuel rest' (i + 1 + n) (setSec m sec fs)
    | _ => (m, i)

/-! ## The restricted literal evaluator (`evaluate`, lines 126-163) -/

/-- Digits to the natural number they denote. -/
def digitsToNat (ds : List Char) : Nat :=
  ds.foldl (fun a c => 10 * a + (c.toNat - 48)) 0

/-- Skip spaces and tabs between expression tokens. -/
def skipWS (s : PyStr) : PyStr := s.dropWhile (fun c => c = ' ' || c = '\t')

/-- Unescape a quoted literal body up to the closing quote `q`
(CPython keeps unrecognized escapes literally). -/
def unescapeScan (q : Char) : List Char → Option (PyStr × List Char)
  | [] => none
  | '\\' :: c :: rest =>
    let mapped : PyStr :=
      if c = 'n' then ['\n'] else if c = 't' then ['\t'] else if c = 'r' then ['\r']
      else if c = '\\' then ['\\'] else if c = '\'' then ['\''] else if c = '"' then ['"']
      else ['\\', c]
    (unescapeScan q rest).map (fun p => (mapped ++ p.1, p.2))
  | c :: rest =>
    if c = q then some ([], rest)
    else (unescapeScan q rest).map (fun p => (c :: p.1, p.2))

/-- Python unary minus as `evaluate` applies it (`-True` is the
integer -1; non-numeric operands raise and the literal is dropped). -/
def negV : Value → Option Value
  | .vint n => some (.vint (-n))
  | .vbool b => some (.vint (-(if b then (1 : Int) else 0)))
  | _ => none

/-- Python unary plus (`+True` is the integer 1). -/
def posV : Value → Option Value
  | .vint n => some (.vint n)
  | .vbool b => some (.vint (if b then 1 else 0))
  | _ => none

/-- Identifier-character test. -/
def isIdentChar (c : Char) : Bool := c.isAlphanum || c = '_'

/-- Head is an identifier character or a dot (used to reject literal
shapes such as `1x`, `1_0` or `1.5` that CPython parses differently
from a plain decimal run; the editor only ever re-parses plain
decimal reprs). -/
def headIsIdentOrDot : PyStr → Bool
  | [] => false
  | c :: _ => isIdentChar c || c = '.'

/-- Recursive-descent model of the `evaluate` grammar on the fragment
`Value` covers: `None`/`True`/`False`/`Ellipsis`/`StopIteration`,
decimal integers, quoted strings, and unary `+`/`-`.  Containers,
floats and complex values are outside the modelled universe and fail,
as does everything `evaluate` itself rejects. -/
def parseExpr : Nat → PyStr → Option (Value × PyStr)
  | 0, _ => none
  | fuel + 1, s =>
    match skipWS s with
    | [] => none
    | c :: rest =>
      if c = '-' then
        match parseExpr fuel rest with
        | some (v, r) => (negV v).map (fun w => (w, r))
        | none => none
      else if c = '+' then
        match parseExpr fuel rest with
        | some (v, r) => (posV v).map (fun w => (w, r))
        | none => none
      else if c = '\'' then
        (unescapeScan '\'' rest).map (fun p => (Value.vstr p.1, p.2))
      else if c = '"' then
        (unescapeScan '"' rest).map (fun p => (Value.vstr p.1, p.2))
      else if isDigitC c then
        let (ds, r) := (c :: rest).span isDigitC
        if headIsIdentOrDot r then none
        else some (Value.vint (digitsToNat ds), r)
      else if isIdentChar c then
        let (w, r) := (c :: rest).span isIdentChar
        if w = str "None" then some (.vnone, r)
        else if w = str "True" then some (.vbool true, r)
        else if w = str "False" then some (.vbool false, r)
        else if w = str "Ellipsis" then some (.vellipsis, r)
        else if w = str "StopIteration" then some (.vstop, r)
        else none
      else none

/-- `evaluate` (lines 126-163): a leading `%` yields the opaque
sentinel string; otherwise the text is left-stripped of spaces and
tabs and parsed as a restricted literal, with trailing input
rejected.  `none` models any raised exception. -/
def evaluate (n : PyStr) : Option Value :=
  if n.head? = some '%' then some (.vstr (str "JO BIDEN !!"))
  else
    let s := pyLstripST n
    match parseExpr (s.length + 1) s with
    | some (v, r) => if skipWS r = [] then some v else none
    | none => none

/-! ## The assembler (`Editor.update_code`, lines 273-370) -/

/-- The mutable assembly state: the `PartialCode` pools and byte
stream plus the two line-offset maps and the instruction counter. -/
structure CodeState where
  constants : List Value := []
  names : List PyStr := []
  varnames : List PyStr := []
  freevars : List PyStr := []
  bytecode : List Nat := []
  lines : List (Nat × Nat) := []
  offsets : List (Nat × Nat) := []
  bc : Nat := 0
deriving DecidableEq

/-- Read the pool a scope selector denotes. -/
def getPool (st : CodeState) : ScopeSel → List PyStr
  | .names => st.names
  | .varnames => st.varnames
  | .freevars => st.freevars

/-- Write the pool a scope selector denotes. -/
def setPool (st : CodeState) : ScopeSel → List PyStr → CodeState
  | .names, p => { st with names := p }
  | .varnames, p => { st with varnames := p }
  | .freevars, p => { st with freevars := p }

/-- Python integer coercion as `arg in range(256)` sees it: `bool` is
an `int` subclass, everything else is not integral. -/
def pyIntVal : Value → Option Int
  | .vint n => some n
  | .vbool b => some (if b then 1 else 0)
  | _ => none

/-- The `arg in range(256)` test of line 344. -/
def inRange256 (v : Value) : Bool :=
  match pyIntVal v with
  | some n => 0 ≤ n && n < 256
  | none => false

/-- The byte stored for an in-range operand. -/
def toByte (v : Value) : Nat :=
  match pyIntVal v with
  | some n => n.toNat
  | none => 0

/-- Python `list.index` (first occurrence; only ever called on lists
containing the element). -/
def pyIndexOf : List PyStr → PyStr → Nat
  | [], _ => 0
  | x :: xs, s => if x = s then 0 else pyIndexOf xs s + 1

/-- Operand resolution for one body line (lines 310-342), given the
already-resolved opcode `instr`: returns the resolved operand (or
`none` for an unresolved one) together with the possibly-grown pools.
Reading `tokens[:3]` ignores any further tokens, as the source
destructuring does. -/
def resolveOperand (tbl : OpTable) (st : CodeState) (instr : Nat)
    (tokens : List Token) : Option Value × CodeState :=
  match tokens with
  | _ :: opTok :: cTok :: _ =>
    if cTok.kind = TokKind.const then
      match opTok.value with
      | '@' :: _ =>
        if instr ∈ tbl.hasconst then
          match evaluate cTok.value with
          | none => (none, st)
          | some c =>
            let (pool, a) := addConst st.constants c
            (some (.vint (a : Int)), { st with constants := pool })
        else
          match getScope tbl instr with
          | some sel =>
            let nm := pyStrip cTok.value
            let scope := getPool st sel
            let scope' := if nm ∈ scope then scope else scope ++ [nm]
            (some (.vint (pyIndexOf scope' nm : Int)), setPool st sel scope')
          | none => (evaluate cTok.value, st)
      | _ => (evaluate cTok.value, st)
    else (some (.vint 0), st)
  | _ => (some (.vint 0), st)

/-- One iteration of the body loop (lines 306-348): skip lines whose
first token is not a known mnemonic, resolve the operand, and append
the instruction plus both line-offset entries when the operand is an
integer in [0, 256). -/
def bodyStep (tbl : OpTable) (iStart : Nat) (st : CodeState) (li : Nat)
    (tokens : List Token) : CodeState :=
  match tokens with
  | tok0 :: _ =>
    if tok0.kind = TokKind.name then
      match tbl.opmap (pyStrip tok0.value) with
      | none => st
      | some instr =>
        let (argOpt, st1) := resolveOperand tbl st instr tokens
        match argOpt with
        | some v =>
          if inRange256 v then
            { st1 with
              bytecode := st1.bytecode ++ [instr, toByte v]
              lines := st1.lines ++ [(st1.bc, li + iStart)]
              offsets := st1.offsets ++ [(li + iStart, st1.bc)]
              bc := st1.bc + 1 }
          else st1
        | none => st1
    else st
  | [] => st

/-- The body loop over `parsed[i:]` (line 306). -/
def bodyPass (tbl : OpTable) (iStart : Nat) (st : CodeState)
    (body : List (List Token)) : CodeState :=
  body.enum.foldl (fun s p => bodyStep tbl iStart s p.1 p.2) st

/-- One declared `CONSTS` entry (lines 351-361): a `%`-prefixed line
appends the opaque sentinel unconditionally; otherwise the entry is
evaluated and appended only when no `eq`-equal constant is pooled. -/
def constDeclStep (pool : List Value) (ln : PyStr) : List Value :=
  match ln with
  | '%' :: _ => pool ++ [.vstr (str "JO BIDEN !!")]
  | _ =>
    match evaluate ln with
    | none => pool
    | some c => if idx pool c = -1 then pool ++ [c] else pool

/-- The declared-section appends after the body pass (lines 350-370):
constants with dedup, symbol pools verbatim (stripped, no dedup). -/
def applySections (secs : SecMap) (st : CodeState) : CodeState :=
  let st1 := match lookupSec secs (str "CONSTS") with
    | some lns => { st with constants := lns.foldl constDeclStep st.constants }
    | none => st
  let st2 := match lookupSec secs (str "NAMES") with
    | some lns => { st1 with names := st1.names ++ lns.map pyStrip }
    | none => st1
  let st3 := match lookupSec secs (str "VARNAMES") with
    | some lns => { st2 with varnames := st2.varnames ++ lns.map pyStrip }
    | none => st2
  match lookupSec secs (str "FREEVARS") with
  | some lns => { st3 with freevars := st3.freevars ++ lns.map pyStrip }
  | none => st3

/-- `Editor.update_code`: parse the buffer, extract declared
sections, then rebuild the code unit from scratch — the empty
starting `CodeState` embeds the `clear()` calls of lines 298-305 —
and finally apply the declared sections. -/
def updateCode (tbl : OpTable) (src : List PyStr) : CodeState :=
  let parsed := parse src
  let (secs, i) := extractSections (parsed.length + 1) parsed 0 []
  let st1 := bodyPass tbl i {} (parsed.drop i)
  applySections secs st1

/-- The editor state the assembler touches: the text buffer and the
code unit rebuilt from it. -/
structure EditorSt where
  src : List PyStr
  code : CodeState
deriving DecidableEq

/-- One assembly pass over an editor state. -/
def editorUpdate (tbl : OpTable) (e : EditorSt) : EditorSt :=
  { e with code := updateCode tbl e.src }

/-! ## The disassembler (`unparse`, lines 95-123) -/

/-- Decimal digit character. -/
def digitChar (n : Nat) : Char := Char.ofNat (48 + n)

/-- Decimal digits of a natural number (fueled division recursion). -/
def natToDigitsAux : Nat → Nat → List Char
  | 0, _ => []
  | fuel + 1, n =>
    if n < 10 then [digitChar n] else natToDigitsAux fuel (n / 10) ++ [digitChar (n % 10)]

/-- Python `str` of a nonnegative integer. -/
def natToDigits (n : Nat) : List Char := natToDigitsAux (n + 1) n

/-- Python `repr` of an integer. -/
def intRepr : Int → List Char
  | .ofNat n => natToDigits n
  | .negSucc m => '-' :: natToDigits (m + 1)

/-- Binary digits of a natural number. -/
def natToBinAux : Nat → Nat → List Char
  | 0, _ => []
  | fuel + 1, n =>
    if n < 2 then [digitChar n] else natToBinAux fuel (n / 2) ++ [digitChar (n % 2)]

/-- Python `format(n, "#b")`. -/
def natToBin (n : Nat) : List Char := str "0b" ++ natToBinAux (n + 1) n

/-- Lower-case hexadecimal digit character. -/
def hexChar (n : Nat) : Char := if n < 10 then digitChar n else Char.ofNat (87 + n)

/-- Hexadecimal digits of a natural number. -/
def natToHexAux : Nat → Nat → List Char
  | 0, _ => []
  | fuel + 1, n =>
    if n < 16 then [hexChar n] else natToHexAux fuel (n / 16) ++ [hexChar (n % 16)]

/-- Python `"%x" % n`. -/
def natToHex (n : Nat) : List Char := natToHexAux (n + 1) n

/-- Escape one character of a string repr. -/
def reprStrEsc (q : Char) (c : Char) : List Char :=
  if c = '\\' then ['\\', '\\']
  else if c = q then ['\\', q]
  else if c = '\n' then ['\\', 'n']
  else if c = '\r' then ['\\', 'r']
  else if c = '\t' then ['\\', 't']
  else [c]

/-- Python `repr` of a string: single quotes, switching to double
quotes when the text contains a single quote but no double quote
(non-printable escapes beyond the common ones are not modelled). -/
def pyReprStr (s : PyStr) : PyStr :=
  let q : Char := if '\'' ∈ s ∧ '"' ∉ s then '"' else '\''
  q :: (s.map (reprStrEsc q)).flatten ++ [q]

/-- Python `repr` on the modelled value universe (`repr` of the
`StopIteration` class is its `<class ...>` form, which `evaluate`
cannot re-read). -/
def reprV : Value → PyStr
  | .vnone => str "None"
  | .vbool true => str "True"
  | .vbool false => str "False"
  | .vint n => intRepr n
  | .vstr s => pyReprStr s
  | .vellipsis => str "Ellipsis"
  | .vstop => str "<class " ++ ['\''] ++ str "StopIteration" ++ ['\''] ++ str ">"

/-- A loaded code object (`types.CodeType`) as `unparse` reads it.
Nested code objects are outside the modelled `Value` universe, so the
`marshal.dumps` branch of line 101 does not arise. -/
structure PyCode where
  co_consts : List Value
  co_names : List PyStr
  co_varnames : List PyStr
  co_freevars : List PyStr
  co_cellvars : List PyStr
  co_flags : Nat
  co_stacksize : Nat
  co_code : List (Nat × Nat)
deriving DecidableEq

/-- One declaration block of `unparse` (lines 104-113). -/
def sectionBlock (name : String) (entries : List PyStr) : List PyStr :=
  if entries.isEmpty then []
  else str (name ++ ":") :: entries.map (fun s => str "    " ++ s)

/-- `unparse` (lines 95-123): declaration sections for each non-empty
pool, the flags and stacksize header lines, a blank separator, then
one line per instruction with a `%`-prefixed raw operand whenever the
opcode takes an argument or the operand is non-zero. -/
def unparse (tbl : OpTable) (co : PyCode) : List PyStr :=
  (if co.co_consts.isEmpty then [] else
    str "CONSTS:" :: co.co_consts.map (fun x => str "    " ++ reprV x))
  ++ sectionBlock "NAMES" co.co_names
  ++ sectionBlock "VARNAMES" co.co_varnames
  ++ sectionBlock "FREEVARS" co.co_freevars
  ++ sectionBlock "CELLVARS" co.co_cellvars
  ++ [str "FLAGS: " ++ natToBin co.co_flags]
  ++ [str "STACKSIZE: " ++ natToDigits co.co_stacksize]
  ++ [[]]
  ++ co.co_code.map (fun p =>
      if tbl.haveArgument ≤ p.1 || p.2 ≠ 0 then
        tbl.opname p.1 ++ str " %" ++ natToDigits p.2
      else tbl.opname p.1)

/-- The instruction stream of a code object as a flat byte list
(`co_code` pairs flattened). -/
def flattenPairs (code : List (Nat × Nat)) : List Nat :=
  code.foldr (fun p acc => p.1 :: p.2 :: acc) []

/-! ## The container codec (`read_pyc`, lines 47-65) -/

/-- Container-load failures, named after the error taxonomy of the
specification (the source raises `EOFError` / `RuntimeError`; the
distinction is not load-bearing). -/
inductive PycError where
  | truncatedHeader
  | magicMismatch
  | unsupportedFlags
  | notACodeObject
deriving DecidableEq

/-- `int.from_bytes(bs, "little")`. -/
def leNat (bs : List Nat) : Nat := bs.foldr (fun b acc => b + 256 * acc) 0

/-- Models `flags & ~0b11` for nonnegative `flags`: Python `~0b11`
is -4 and `n & -4 = 4 * (n / 4)` for `n ≥ 0`. -/
def andNotThree (n : Nat) : Nat := 4 * (n / 4)

/-- `read_pyc` (lines 47-65), parameterized by the interpreter magic
number and the external `marshal.loads` payload decoder: check the
16-byte header, the 4-byte magic and the low-2-bit flags word (both
bypassed under `force`), then decode the payload, which must be a
code object. -/
def read_pyc (magic : List Nat) (decode : List Nat → Option PyCode)
    (data : List Nat) (force : Bool) : Except PycError (List Nat × PyCode) :=
  let header := data.take 16
  if header.length < 16 then .error .truncatedHeader
  else if header.take 4 ≠ magic ∧ force = false then .error .magicMismatch
  else
    let flags := leNat ((header.drop 4).take 4)
    if andNotThree flags ≠ 0 ∧ force = false then .error .unsupportedFlags
    else
      match decode (data.drop 16) with
      | some co => .ok (header, co)
      | none => .error .notACodeObject

/-- The `"[HEXED!]"` annotation of the format descriptor
(`Editor.__init__`, line 216): present exactly when the observed
magic differs from the expected one. -/
def hexedMark (magic header : List Nat) : PyStr :=
  if header.take 4 ≠ magic then str "[HEXED!]" else []

/-- The `pyc` format descriptor string of `Editor.__init__`
(lines 214-218). -/
def formatDescriptor (magic header : List Nat) : PyStr :=
  str "pyc(MAGIC=" ++ natToDigits (leNat (header.take 2)) ++ hexedMark magic header
    ++ str ":F=" ++ natToHex (leNat ((header.drop 4).take 4)) ++ str ")"

/-! ## Derived forms used to state the round-trip property -/

/-- A mnemonic the assembler can resolve and reproduce: its name in
the opcode table is a nonempty `[A-Z_]` run that maps back to the
opcode. -/
def validOp (tbl : OpTable) (op : Nat) : Prop :=
  tbl.opname op ≠ [] ∧ (∀ c ∈ tbl.opname op, isUpperU c = true)
    ∧ tbl.opmap (tbl.opname op) = some op

/-- The textual stability a constant needs to survive the
declared-constants round trip: its repr has no leading whitespace, is
not `%`-prefixed, and re-evaluates to the constant itself. -/
def reprRoundtrips (c : Value) : Prop :=
  pyLstrip (reprV c) = reprV c ∧ (reprV c).head? ≠ some '%'
    ∧ evaluate (reprV c) = some c

/-- One indented declaration entry line. -/
def padEntry (s : PyStr) : PyStr := str "    " ++ s

/-- The declaration blocks `unparse` emits for a code object, in
order, with empty pools omitted. -/
def blocksOf (co : PyCode) : List (PyStr × List PyStr) :=
  (if co.co_consts.isEmpty then [] else
    [(str "CONSTS", co.co_consts.map (fun c => padEntry (reprV c)))])
  ++ (if co.co_names.isEmpty then [] else [(str "NAMES", co.co_names.map padEntry)])
  ++ (if co.co_varnames.isEmpty then [] else [(str "VARNAMES", co.co_varnames.map padEntry)])
  ++ (if co.co_freevars.isEmpty then [] else [(str "FREEVARS", co.co_freevars.map padEntry)])
  ++ (if co.co_cellvars.isEmpty then [] else [(str "CELLVARS", co.co_cellvars.map padEntry)])

/-- The text lines of one declaration block. -/
def blockLines (b : PyStr × List PyStr) : List PyStr := (b.1 ++ [':']) :: b.2

/-- The parsed form of one declaration block. -/
def blockParsed (b : PyStr × List PyStr) : List (List Token) :=
  (⟨TokKind.sect, b.1⟩ :: [⟨TokKind.op, str ":"⟩]) :: b.2.map (fun f => [⟨TokKind.field, f⟩])

/-- One disassembled instruction line. -/
def instrLine (tbl : OpTable) (p : Nat × Nat) : PyStr :=
  if tbl.haveArgument ≤ p.1 || p.2 ≠ 0 then
    tbl.opname p.1 ++ str " %" ++ natToDigits p.2
  else tbl.opname p.1

/-! ## Facts about the dedup helpers -/

theorem eq_self (x : Value) : eq x x = true := by
  cases x <;> simp [eq]

theorem eq_vbool_right {b : Bool} {y : Value} (h : eq (.vbool b) y = true) :
    y = .vbool b := by
  cases y <;> simp_all [eq]

theorem eq_vint_right {n : Int} {y : Value} (h : eq (.vint n) y = true) :
    ∃ m, y = .vint m := by
  cases y <;> simp_all [eq]

theorem idx_go_neg_iff (x : Value) :
    ∀ (s : List Value) (i : Nat), idx.go x s i = -1 ↔ ∀ y ∈ s, eq x y = false := by
  intro s
  induction s with
  | nil => simp [idx.go]
  | cons y ys ih =>
    intro i
    by_cases h : eq x y = true
    · simp only [idx.go, h, if_true]
      constructor
      · intro hi; exact absurd hi (by omega)
      · intro hall
        exact absurd (hall y (by simp)) (by simp [h])
    · have h' : eq x y = false := by simpa using h
      simp only [idx.go, h', Bool.false_eq_true, if_false]
      rw [ih (i + 1)]
      constructor
      · intro hall z hz
        rcases List.mem_cons.mp hz with rfl | hz'
        · exact h'
        · exact hall z hz'
      · intro hall z hz
        exact hall z (List.mem_cons.mpr (Or.inr hz))

theorem idx_go_found (x : Value) :
    ∀ (s : List Value) (i : Nat), idx.go x s i = -1 ∨
      ∃ j y, j < s.length ∧ idx.go x s i = ((i + j : Nat) : Int) ∧
        s[j]? = some y ∧ eq x y = true := by
  intro s
  induction s with
  | nil => intro i; exact Or.inl rfl
  | cons y ys ih =>
    intro i
    by_cases h : eq x y = true
    · refine Or.inr ⟨0, y, by simp, ?_, by simp, h⟩
      simp [idx.go, h]
    · have h' : eq x y = false := by simpa using h
      rcases ih (i + 1) with hneg | ⟨j, z, hj, heq, hget, hz⟩
      · exact Or.inl (by simp [idx.go, h', hneg])
      · refine Or.inr ⟨j + 1, z, by simpa using hj, ?_, by simpa using hget, hz⟩
        simp only [idx.go, h', Bool.false_eq_true, if_false]
        rw [heq]; congr 1; omega

theorem idx_neg_iff (s : List Value) (x : Value) :
    idx s x = -1 ↔ ∀ y ∈ s, eq x y = false :=
  idx_go_neg_iff x s 0

theorem idx_found {s : List Value} {x : Value} (h : idx s x ≠ -1) :
    ∃ j y, j < s.length ∧ idx s x = (j : Int) ∧ s[j]? = some y ∧ eq x y = true := by
  rcases idx_go_found x s 0 with h0 | ⟨j, y, hj, heq, hget, hy⟩
  · exact absurd h0 h
  · exact ⟨j, y, hj, by simpa using heq, hget, hy⟩

theorem idx_go_append (x : Value) :
    ∀ (s t : List Value) (i : Nat), (∀ y ∈ s, eq x y = false) →
      idx.go x (s ++ t) i = idx.go x t (i + s.length) := by
  intro s
  induction s with
  | nil => intro t i _; simp
  | cons y ys ih =>
    intro t i hall
    have h' : eq x y = false := hall y (by simp)
    show idx.go x (y :: (ys ++ t)) i = _
    simp only [idx.go, h', Bool.false_eq_true, if_false]
    rw [ih t (i + 1) (fun z hz => hall z (List.mem_cons.mpr (Or.inr hz)))]
    congr 1
    simp only [List.length_cons]
    omega

theorem idx_append_self {pool : List Value} {x : Value} (h : idx pool x = -1) :
    idx (pool ++ [x]) x = (pool.length : Int) := by
  have hall := (idx_neg_iff pool x).mp h
  unfold idx
  rw [idx_go_append x pool [x] 0 hall]
  simp [idx.go, eq_self]

theorem addConst_of_neg {pool : List Value} {x : Value} (h : idx pool x = -1) :
    addConst pool x = (pool ++ [x], pool.length) := by
  simp [addConst, h]

theorem addConst_of_found {pool : List Value} {x : Value} {j : Nat}
    (h : idx pool x = (j : Int)) : addConst pool x = (pool, j) := by
  have hne : idx pool x ≠ -1 := by rw [h]; omega
  simp [addConst, h, hne]

/-- C2: inserting into the constant pool dedups by identity or exact
type match plus hash equality: for every pool, resolving boolean
`True` and then integer `1` yields two distinct indices whose entries
are a boolean and an integer respectively (no merge); resolving the
integer `1` twice yields the same pool and the same index the second
time; and an insertion grows the pool exactly when no pooled entry is
`eq`-equal to the inserted value. -/
theorem dedup_type_sensitive (pool : List Value) :
    ((addConst pool (.vbool true)).2 ≠
        (addConst (addConst pool (.vbool true)).1 (.vint 1)).2
      ∧ (addConst (addConst pool (.vbool true)).1 (.vint 1)).1[(addConst pool (.vbool true)).2]?
          = some (.vbool true)
      ∧ ∃ m, (addConst (addConst pool (.vbool true)).1 (.vint 1)).1[(addConst (addConst pool (.vbool true)).1 (.vint 1)).2]?
          = some (.vint m))
    ∧ addConst (addConst pool (.vint 1)).1 (.vint 1) = addConst pool (.vint 1)
    ∧ ∀ x, (addConst pool x).1.length = pool.length + 1 ↔ ∀ y ∈ pool, eq x y = false := by
  refine ⟨?_, ?_, ?_⟩
  · by_cases hT : idx pool (.vbool true) = -1
    · by_cases hI : idx (pool ++ [.vbool true]) (.vint 1) = -1
      · simp only [addConst_of_neg hT, addConst_of_neg hI]
        refine ⟨by simp, ?_, 1, ?_⟩
        · rw [List.getElem?_append_left (by simp)]
          exact List.getElem?_concat_length pool (Value.vbool true)
        · exact List.getElem?_concat_length _ (Value.vint 1)
      · rcases idx_found hI with ⟨j, y, hj, hjeq, hget, hy⟩
        rcases eq_vint_right hy with ⟨m, rfl⟩
        simp only [addConst_of_neg hT, addConst_of_found hjeq]
        have hne : j ≠ pool.length := by
          intro hcontra
          rw [hcontra, List.getElem?_concat_length] at hget
          exact absurd hget (by simp)
        exact ⟨fun hc => hne hc.symm,
          List.getElem?_concat_length pool (Value.vbool true), m, hget⟩
    · rcases idx_found hT with ⟨j, y, hj, hjeq, hget, hy⟩
      have hyb := eq_vbool_right hy
      subst hyb
      by_cases hI : idx pool (.vint 1) = -1
      · simp only [addConst_of_found hjeq, addConst_of_neg hI]
        refine ⟨by omega, ?_, 1, ?_⟩
        · rw [List.getElem?_append_left hj]; exact hget
        · exact List.getElem?_concat_length _ (Value.vint 1)
      · rcases idx_found hI with ⟨j2, y2, hj2, hj2eq, hget2, hy2⟩
        rcases eq_vint_right hy2 with ⟨m, rfl⟩
        simp only [addConst_of_found hjeq, addConst_of_found hj2eq]
        refine ⟨?_, hget, m, hget2⟩
        intro hc
        rw [hc] at hget
        rw [hget] at hget2
        exact absurd hget2 (by simp)
  · by_cases hI : idx pool (.vint 1) = -1
    · simp only [addConst_of_neg hI, addConst_of_found (idx_append_self hI)]
    · rcases idx_found hI with ⟨j, y, hj, hjeq, hget, hy⟩
      simp only [addConst_of_found hjeq]
  · intro x
    by_cases hx : idx pool x = -1
    · simp only [addConst_of_neg hx]
      simpa using (idx_neg_iff pool x).mp hx
    · rcases idx_found hx with ⟨j, y, hj, hjeq, hget, hy⟩
      simp only [addConst_of_found hjeq]
      constructor
      · omega
      · intro hall
        have : eq x y = false := hall y (List.getElem?_mem hget)
        rw [this] at hy; exact absurd hy (by simp)

/-! ## Facts about the pools and operand resolution -/

theorem eq_symm (a b : Value) : eq a b = eq b a := by
  cases a <;> cases b <;> simp [eq, eq_comm]

theorem getPool_setPool (st : CodeState) (sel : ScopeSel) (p : List PyStr) :
    getPool (setPool st sel p) sel = p := by
  cases sel <;> rfl

theorem setPool_self (st : CodeState) (sel : ScopeSel) :
    setPool st sel (getPool st sel) = st := by
  cases sel <;> rfl

theorem setPool_bytecode (st : CodeState) (sel : ScopeSel) (p : List PyStr) :
    (setPool st sel p).bytecode = st.bytecode := by
  cases sel <;> rfl

theorem setPool_lines (st : CodeState) (sel : ScopeSel) (p : List PyStr) :
    (setPool st sel p).lines = st.lines := by
  cases sel <;> rfl

theorem setPool_offsets (st : CodeState) (sel : ScopeSel) (p : List PyStr) :
    (setPool st sel p).offsets = st.offsets := by
  cases sel <;> rfl

theorem setPool_bc (st : CodeState) (sel : ScopeSel) (p : List PyStr) :
    (setPool st sel p).bc = st.bc := by
  cases sel <;> rfl

theorem setPool_constants (st : CodeState) (sel : ScopeSel) (p : List PyStr) :
    (setPool st sel p).constants = st.constants := by
  cases sel <;> rfl

/-- Operand resolution only ever touches the pools: the byte stream,
both line-offset maps and the instruction counter pass through. -/
theorem resolveOperand_frame (tbl : OpTable) (st : CodeState) (instr : Nat)
    (tokens : List Token) :
    (resolveOperand tbl st instr tokens).2.bytecode = st.bytecode
    ∧ (resolveOperand tbl st instr tokens).2.lines = st.lines
    ∧ (resolveOperand tbl st instr tokens).2.offsets = st.offsets
    ∧ (resolveOperand tbl st instr tokens).2.bc = st.bc := by
  unfold resolveOperand
  repeat' split
  all_goals
    first
      | exact ⟨rfl, rfl, rfl, rfl⟩
      | exact ⟨setPool_bytecode .., setPool_lines .., setPool_offsets .., setPool_bc ..⟩

theorem setPool_setPool (st : CodeState) (sel : ScopeSel) (p q : List PyStr) :
    setPool (setPool st sel p) sel q = setPool st sel q := by
  cases sel <;> rfl

theorem indexOf_append_self {l : List PyStr} {s : PyStr} (h : s ∉ l) :
    pyIndexOf (l ++ [s]) s = l.length := by
  induction l with
  | nil => simp [pyIndexOf]
  | cons x xs ih =>
    have hx : x ≠ s := fun hc => h (by simp [hc])
    have hxs : s ∉ xs := fun hc => h (by simp [hc])
    simp [pyIndexOf, hx, ih hxs]

/-- C7: during operand resolution of a symbol-reference opcode, a
previously-unseen symbol is appended at the end of the corresponding
pool and resolves to its index (the old pool length); a symbol
already pooled resolves to its first index and leaves the state
untouched; in particular resolving the same fresh symbol twice in a
row grows the pool once and yields the same index both times. -/
theorem symbol_auto_registration (tbl : OpTable) (st : CodeState) (instr : Nat)
    (sel : ScopeSel) (tok0 opTok cTok : Token) (rest : List Token) (sp : PyStr)
    (hconst : cTok.kind = TokKind.const)
    (hat : opTok.value = '@' :: sp)
    (hnc : instr ∉ tbl.hasconst)
    (hscope : getScope tbl instr = some sel) :
    (pyStrip cTok.value ∉ getPool st sel →
      resolveOperand tbl st instr (tok0 :: opTok :: cTok :: rest)
        = (some (.vint ((getPool st sel).length : Int)),
            setPool st sel (getPool st sel ++ [pyStrip cTok.value]))
      ∧ resolveOperand tbl (setPool st sel (getPool st sel ++ [pyStrip cTok.value]))
            instr (tok0 :: opTok :: cTok :: rest)
        = (some (.vint ((getPool st sel).length : Int)),
            setPool st sel (getPool st sel ++ [pyStrip cTok.value])))
    ∧ (pyStrip cTok.value ∈ getPool st sel →
      resolveOperand tbl st instr (tok0 :: opTok :: cTok :: rest)
        = (some (.vint (pyIndexOf (getPool st sel) (pyStrip cTok.value) : Int)), st)) := by
  constructor
  · intro hfresh
    constructor
    · simp only [resolveOperand, hconst, hat, hnc, hscope, if_true, if_false]
      rw [if_neg hfresh, indexOf_append_self hfresh]
    · simp only [resolveOperand, hconst, hat, hnc, hscope, if_true, if_false]
      have hmem : pyStrip cTok.value ∈
          getPool (setPool st sel (getPool st sel ++ [pyStrip cTok.value])) sel := by
        rw [getPool_setPool]; simp
      rw [if_pos hmem, getPool_setPool, indexOf_append_self hfresh, setPool_setPool]
  · intro hseen
    simp only [resolveOperand, hconst, hat, hnc, hscope, if_true, if_false]
    rw [if_pos hseen, setPool_self]

/-- C7 witness: resolving `LOAD_FAST @n` against the empty state
registers `n` into the varnames pool at index 0, and resolving it
again against the grown state yields index 0 without growing. -/
theorem symbol_auto_registration_witness :
    resolveOperand py310 {} 124 (tokenizeBody (str "LOAD_FAST @n"))
      = (some (.vint 0), { varnames := [str "n"] })
    ∧ resolveOperand py310 { varnames := [str "n"] } 124 (tokenizeBody (str "LOAD_FAST @n"))
      = (some (.vint 0), { varnames := [str "n"] }) := by
  have htoks : tokenizeBody (str "LOAD_FAST @n")
      = [⟨TokKind.name, str "LOAD_FAST "⟩, ⟨TokKind.op, str "@"⟩, ⟨TokKind.const, str "n"⟩] := by
    decide
  have h := (symbol_auto_registration py310 {} 124 ScopeSel.varnames
      ⟨TokKind.name, str "LOAD_FAST "⟩ ⟨TokKind.op, str "@"⟩ ⟨TokKind.const, str "n"⟩ [] []
      rfl rfl (by decide) (by decide)).1 (by decide)
  rw [htoks]
  refine ⟨h.1.trans (by decide), ?_⟩
  have h2 := h.2
  have hst : setPool {} ScopeSel.varnames
      (getPool {} ScopeSel.varnames ++ [pyStrip (str "n")])
      = ({ varnames := [str "n"] } : CodeState) := by decide
  have hv : (Value.vint ((getPool ({} : CodeState) ScopeSel.varnames).length : Int))
      = Value.vint 0 := by decide
  rw [hst, hv] at h2
  exact h2

/-- C5: a body line whose first token is a known mnemonic is appended
to the instruction stream and recorded in both line-offset maps
exactly when its resolved operand is an integer in [0, 255]; any
other resolution outcome (a non-integer, an out-of-range integer, or
a failed evaluation) leaves the stream, both maps and the counter
untouched — the instruction is silently dropped, and the total pass
has no error path. -/
theorem operand_range_gate (tbl : OpTable) (st : CodeState) (iStart li : Nat)
    (tok0 : Token) (rest : List Token) (instr : Nat)
    (hkind : tok0.kind = TokKind.name)
    (hop : tbl.opmap (pyStrip tok0.value) = some instr) :
    (∀ v n, (resolveOperand tbl st instr (tok0 :: rest)).1 = some v →
        pyIntVal v = some n → 0 ≤ n → n < 256 →
      bodyStep tbl iStart st li (tok0 :: rest)
        = { (resolveOperand tbl st instr (tok0 :: rest)).2 with
            bytecode := (resolveOperand tbl st instr (tok0 :: rest)).2.bytecode
              ++ [instr, n.toNat]
            lines := (resolveOperand tbl st instr (tok0 :: rest)).2.lines
              ++ [((resolveOperand tbl st instr (tok0 :: rest)).2.bc, li + iStart)]
            offsets := (resolveOperand tbl st instr (tok0 :: rest)).2.offsets
              ++ [(li + iStart, (resolveOperand tbl st instr (tok0 :: rest)).2.bc)]
            bc := (resolveOperand tbl st instr (tok0 :: rest)).2.bc + 1 })
    ∧ ((∀ v, (resolveOperand tbl st instr (tok0 :: rest)).1 = some v → inRange256 v = false) →
      (bodyStep tbl iStart st li (tok0 :: rest)).bytecode = st.bytecode
      ∧ (bodyStep tbl iStart st li (tok0 :: rest)).lines = st.lines
      ∧ (bodyStep tbl iStart st li (tok0 :: rest)).offsets = st.offsets
      ∧ (bodyStep tbl iStart st li (tok0 :: rest)).bc = st.bc) := by
  constructor
  · intro v n hv hn h0 h255
    have hin : inRange256 v = true := by
      simp only [inRange256, hn]
      simp
      omega
    have hbyte : toByte v = n.toNat := by simp [toByte, hn]
    simp only [bodyStep, hkind, if_true, hop]
    rcases hres : resolveOperand tbl st instr (tok0 :: rest) with ⟨argOpt, st1⟩
    rw [hres] at hv
    simp only at hv
    subst hv
    simp only [hin, if_true, hbyte]
  · intro hdrop
    have frame := resolveOperand_frame tbl st instr (tok0 :: rest)
    simp only [bodyStep, hkind, if_true, hop]
    rcases hres : resolveOperand tbl st instr (tok0 :: rest) with ⟨argOpt, st1⟩
    rw [hres] at frame hdrop
    simp only at frame hdrop
    rcases argOpt with _ | v
    · exact frame
    · have hfalse := hdrop v rfl
      simp only [hfalse, Bool.false_eq_true, if_false]
      exact frame

/-- C5 witness: `EXTENDED_ARG %256` resolves to 256 and is dropped
from the stream, while `EXTENDED_ARG %255` is appended and recorded
in both maps. -/
theorem operand_range_gate_witness :
    ((bodyStep py310 0 {} 0 (tokenizeBody (str "EXTENDED_ARG %256"))).bytecode = []
      ∧ (bodyStep py310 0 {} 0 (tokenizeBody (str "EXTENDED_ARG %256"))).lines = []
      ∧ (bodyStep py310 0 {} 0 (tokenizeBody (str "EXTENDED_ARG %256"))).offsets = [])
    ∧ bodyStep py310 0 {} 0 (tokenizeBody (str "EXTENDED_ARG %255"))
      = { bytecode := [144, 255], lines := [(0, 0)], offsets := [(0, 0)], bc := 1 } := by
  have htoks : tokenizeBody (str "EXTENDED_ARG %256")
      = ⟨TokKind.name, str "EXTENDED_ARG "⟩ :: [⟨TokKind.op, str "%"⟩, ⟨TokKind.const, str "256"⟩] := by
    decide
  have htoks2 : tokenizeBody (str "EXTENDED_ARG %255")
      = ⟨TokKind.name, str "EXTENDED_ARG "⟩ :: [⟨TokKind.op, str "%"⟩, ⟨TokKind.const, str "255"⟩] := by
    decide
  constructor
  · have hres : resolveOperand py310 {} 144
        (⟨TokKind.name, str "EXTENDED_ARG "⟩ :: [⟨TokKind.op, str "%"⟩, ⟨TokKind.const, str "256"⟩])
        = (some (Value.vint 256), {}) := by decide
    have hdrop : ∀ v, (resolveOperand py310 {} 144
        (⟨TokKind.name, str "EXTENDED_ARG "⟩ :: [⟨TokKind.op, str "%"⟩, ⟨TokKind.const, str "256"⟩])).1
          = some v → inRange256 v = false := by
      intro v hv
      rw [hres] at hv
      simp only [Option.some.injEq] at hv
      subst hv
      decide
    have h := (operand_range_gate py310 {} 0 0 ⟨TokKind.name, str "EXTENDED_ARG "⟩
      [⟨TokKind.op, str "%"⟩, ⟨TokKind.const, str "256"⟩] 144 rfl (by decide)).2 hdrop
    rw [htoks]
    exact ⟨h.1, h.2.1, h.2.2.1⟩
  · have h := (operand_range_gate py310 {} 0 0 ⟨TokKind.name, str "EXTENDED_ARG "⟩
      [⟨TokKind.op, str "%"⟩, ⟨TokKind.const, str "255"⟩] 144 rfl (by decide)).1
      (Value.vint 255) 255 (by decide) (by decide) (by decide) (by decide)
    rw [htoks2, h]
    decide

/-- C9: operand resolution is not atomic with the range gate — on a
body line whose constant operand is fresh but whose pool already
holds 256 entries, the constant is appended and kept even though the
instruction itself is dropped, and likewise a fresh symbol reference
grows its pool while the instruction is dropped. -/
theorem dropped_line_still_grows_pools :
    (∀ (tbl : OpTable) (st : CodeState) (iStart li instr : Nat)
        (tok0 opTok cTok : Token) (rest : List Token) (sp : PyStr) (c : Value),
      tok0.kind = TokKind.name → tbl.opmap (pyStrip tok0.value) = some instr →
      cTok.kind = TokKind.const → opTok.value = '@' :: sp →
      instr ∈ tbl.hasconst → evaluate cTok.value = some c →
      idx st.constants c = -1 → 256 ≤ st.constants.length →
      bodyStep tbl iStart st li (tok0 :: opTok :: cTok :: rest)
        = { st with constants := st.constants ++ [c] })
    ∧ (∀ (tbl : OpTable) (st : CodeState) (iStart li instr : Nat)
        (tok0 opTok cTok : Token) (rest : List Token) (sp : PyStr) (sel : ScopeSel),
      tok0.kind = TokKind.name → tbl.opmap (pyStrip tok0.value) = some instr →
      cTok.kind = TokKind.const → opTok.value = '@' :: sp →
      instr ∉ tbl.hasconst → getScope tbl instr = some sel →
      pyStrip cTok.value ∉ getPool st sel → 256 ≤ (getPool st sel).length →
      bodyStep tbl iStart st li (tok0 :: opTok :: cTok :: rest)
        = setPool st sel (getPool st sel ++ [pyStrip cTok.value])) := by
  constructor
  · intro tbl st iStart li instr tok0 opTok cTok rest sp c
      hkind hop hconst hat hin heval hidx hbig
    have hres : resolveOperand tbl st instr (tok0 :: opTok :: cTok :: rest)
        = (some (.vint (st.constants.length : Int)), { st with constants := st.constants ++ [c] }) := by
      simp only [resolveOperand, hconst, hat, hin, if_true, heval, addConst_of_neg hidx]
    have hrange : inRange256 (Value.vint (st.constants.length : Int)) = false := by
      simp only [inRange256, pyIntVal]
      simp
      omega
    simp only [bodyStep, hkind, if_true, hop, hres, hrange, Bool.false_eq_true, if_false]
  · intro tbl st iStart li instr tok0 opTok cTok rest sp sel
      hkind hop hconst hat hnc hscope hfresh hbig
    have hres := (symbol_auto_registration tbl st instr sel tok0 opTok cTok rest sp
      hconst hat hnc hscope).1 hfresh
    have hrange : inRange256 (Value.vint ((getPool st sel).length : Int)) = false := by
      simp only [inRange256, pyIntVal]
      simp
      omega
    simp only [bodyStep, hkind, if_true, hop, hres.1, hrange, Bool.false_eq_true, if_false]

set_option maxRecDepth 100000 in
/-- C9 witness: with 256 pooled integer constants, `LOAD_CONST @256`
grows the pool to 257 entries while assembling nothing, and with 256
pooled varnames `LOAD_FAST @zz` grows the varnames pool while
assembling nothing. -/
theorem dropped_line_still_grows_pools_witness :
    ((bodyStep py310 0 { constants := (List.range 256).map (fun k => Value.vint (Int.ofNat k)) } 0
        [⟨TokKind.name, str "LOAD_CONST "⟩, ⟨TokKind.op, str "@"⟩, ⟨TokKind.const, str "256"⟩]).constants.length = 257
      ∧ (bodyStep py310 0 { constants := (List.range 256).map (fun k => Value.vint (Int.ofNat k)) } 0
        [⟨TokKind.name, str "LOAD_CONST "⟩, ⟨TokKind.op, str "@"⟩, ⟨TokKind.const, str "256"⟩]).bytecode = [])
    ∧ ((bodyStep py310 0 { varnames := (List.range 256).map natToDigits } 0
        [⟨TokKind.name, str "LOAD_FAST "⟩, ⟨TokKind.op, str "@"⟩, ⟨TokKind.const, str "zz"⟩]).varnames.length = 257
      ∧ (bodyStep py310 0 { varnames := (List.range 256).map natToDigits } 0
        [⟨TokKind.name, str "LOAD_FAST "⟩, ⟨TokKind.op, str "@"⟩, ⟨TokKind.const, str "zz"⟩]).bytecode = []) := by
  constructor
  · have h := dropped_line_still_grows_pools.1 py310
      { constants := (List.range 256).map (fun k => Value.vint (Int.ofNat k)) } 0 0 100
      ⟨TokKind.name, str "LOAD_CONST "⟩ ⟨TokKind.op, str "@"⟩ ⟨TokKind.const, str "256"⟩ [] []
      (Value.vint 256) rfl (by decide) rfl rfl (by decide) (by decide) (by decide) (by decide)
    rw [h]
    constructor
    · simp
    · rfl
  · have h := dropped_line_still_grows_pools.2 py310
      { varnames := (List.range 256).map natToDigits } 0 0 124
      ⟨TokKind.name, str "LOAD_FAST "⟩ ⟨TokKind.op, str "@"⟩ ⟨TokKind.const, str "zz"⟩ [] []
      ScopeSel.varnames rfl (by decide) rfl rfl (by decide) (by decide) (by decide) (by decide)
    rw [h]
    constructor
    · simp [getPool, setPool]
    · rfl

/-- C4 counterexample: the body line `RETURN_VALUE xyz` tokenizes to
a `name` token followed by an `unknown` token, yet it still assembles
to a `RETURN_VALUE` instruction with operand 0 — a line containing an
`unknown` token is not excluded from assembly. -/
theorem unknown_token_still_assembles :
    (tokenizeBody (str "RETURN_VALUE xyz")).map Token.kind = [TokKind.name, TokKind.unknown]
    ∧ (updateCode py310 [str "RETURN_VALUE xyz"]).bytecode = [83, 0]
    ∧ (updateCode py310 [str "RETURN_VALUE xyz"]).lines = [(0, 0)] := by
  decide

/-- C4 (amended): a body line contributes no instruction when its
Parsed Line has zero tokens or its first token is `unknown` (an
`unknown` token after the leading `name` token does not exclude the
line; the operand then defaults to 0). -/
theorem excluded_lines_contribute_nothing (tbl : OpTable) (iStart : Nat)
    (st : CodeState) (li : Nat) (tokens : List Token)
    (h : tokens = [] ∨ ∃ t rest, tokens = t :: rest ∧ t.kind = TokKind.unknown) :
    bodyStep tbl iStart st li tokens = st := by
  rcases h with rfl | ⟨t, rest, rfl, hk⟩
  · rfl
  · simp [bodyStep, hk]

/-- C4 witness: a line of plain lowercase text tokenizes to a single
`unknown` token and assembles to nothing. -/
theorem excluded_lines_contribute_nothing_witness :
    bodyStep py310 0 {} 0 (tokenizeBody (str "meow")) = {} := by
  have h := excluded_lines_contribute_nothing py310 0 {} 0 (tokenizeBody (str "meow"))
    (Or.inr ⟨⟨TokKind.unknown, str "meow"⟩, [], by decide, rfl⟩)
  exact h

/-- C3 counterexample: a buffer declaring the name `x` twice yields a
names pool with a duplicate entry — declared symbol entries are
appended with no dedup, contradicting the claim that no declared
entry creates a duplicate pool entry. -/
theorem declared_symbols_not_deduped :
    (updateCode py310 [str "NAMES:", str "    x", str "    x"]).names = [str "x", str "x"]
    ∧ ¬ (updateCode py310 [str "NAMES:", str "    x", str "    x"]).names.Nodup := by
  decide

theorem constDeclStep_pairwise {pool : List Value} {ln : PyStr}
    (hpct : ln.head? ≠ some '%')
    (hpw : pool.Pairwise (fun a b => eq a b = false)) :
    (constDeclStep pool ln).Pairwise (fun a b => eq a b = false) := by
  unfold constDeclStep
  split
  · simp_all
  · split
    · exact hpw
    · split
      · rename_i hidx
        rw [List.pairwise_append]
        refine ⟨hpw, by simp, ?_⟩
        intro a ha b hb
        rw [List.mem_singleton] at hb
        subst hb
        rw [eq_symm]
        exact (idx_neg_iff _ _).mp hidx a ha
      · exact hpw

theorem constDeclFold_pairwise :
    ∀ (lns : List PyStr) (pool : List Value), (∀ ln ∈ lns, ln.head? ≠ some '%') →
      pool.Pairwise (fun a b => eq a b = false) →
      (lns.foldl constDeclStep pool).Pairwise (fun a b => eq a b = false) := by
  intro lns
  induction lns with
  | nil => intro pool _ hpw; exact hpw
  | cons ln rest ih =>
    intro pool hall hpw
    simp only [List.foldl_cons]
    exact ih _ (fun l hl => hall l (by simp [hl]))
      (constDeclStep_pairwise (hall ln (by simp)) hpw)

theorem applySections_names (secs : SecMap) (st : CodeState) :
    (applySections secs st).names
      = st.names ++ ((lookupSec secs (str "NAMES")).getD []).map pyStrip := by
  unfold applySections
  rcases lookupSec secs (str "CONSTS") with _ | lnsC <;>
    rcases lookupSec secs (str "NAMES") with _ | lnsN <;>
      rcases lookupSec secs (str "VARNAMES") with _ | lnsV <;>
        rcases lookupSec secs (str "FREEVARS") with _ | lnsF <;>
          simp

theorem applySections_varnames (secs : SecMap) (st : CodeState) :
    (applySections secs st).varnames
      = st.varnames ++ ((lookupSec secs (str "VARNAMES")).getD []).map pyStrip := by
  unfold applySections
  rcases lookupSec secs (str "CONSTS") with _ | lnsC <;>
    rcases lookupSec secs (str "NAMES") with _ | lnsN <;>
      rcases lookupSec secs (str "VARNAMES") with _ | lnsV <;>
        rcases lookupSec secs (str "FREEVARS") with _ | lnsF <;>
          simp

theorem applySections_freevars (secs : SecMap) (st : CodeState) :
    (applySections secs st).freevars
      = st.freevars ++ ((lookupSec secs (str "FREEVARS")).getD []).map pyStrip := by
  unfold applySections
  rcases lookupSec secs (str "CONSTS") with _ | lnsC <;>
    rcases lookupSec secs (str "NAMES") with _ | lnsN <;>
      rcases lookupSec secs (str "VARNAMES") with _ | lnsV <;>
        rcases lookupSec secs (str "FREEVARS") with _ | lnsF <;>
          simp

theorem applySections_constants (secs : SecMap) (st : CodeState) :
    (applySections secs st).constants
      = ((lookupSec secs (str "CONSTS")).getD []).foldl constDeclStep st.constants := by
  unfold applySections
  rcases lookupSec secs (str "CONSTS") with _ | lnsC <;>
    rcases lookupSec secs (str "NAMES") with _ | lnsN <;>
      rcases lookupSec secs (str "VARNAMES") with _ | lnsV <;>
        rcases lookupSec secs (str "FREEVARS") with _ | lnsF <;>
          simp

/-- C3 (amended): after the body pass, declared `CONSTS` entries are
folded into the constant pool under the type-plus-hash dedup rule
(`%`-prefixed entries append the opaque sentinel unconditionally and
unevaluable entries are skipped), so declared constants without
`%`-entries never create an `eq`-duplicate; declared `NAMES`,
`VARNAMES` and `FREEVARS` entries are appended verbatim (stripped) in
declaration order with no dedup at all, so a declared symbol equal to
an already-pooled one does create a duplicate. -/
theorem declared_sections_append (secs : SecMap) (st : CodeState) :
    (applySections secs st).names
      = st.names ++ ((lookupSec secs (str "NAMES")).getD []).map pyStrip
    ∧ (applySections secs st).varnames
      = st.varnames ++ ((lookupSec secs (str "VARNAMES")).getD []).map pyStrip
    ∧ (applySections secs st).freevars
      = st.freevars ++ ((lookupSec secs (str "FREEVARS")).getD []).map pyStrip
    ∧ (applySections secs st).constants
      = ((lookupSec secs (str "CONSTS")).getD []).foldl constDeclStep st.constants
    ∧ ((∀ ln ∈ ((lookupSec secs (str "CONSTS")).getD []), ln.head? ≠ some '%') →
        st.constants.Pairwise (fun a b => eq a b = false) →
        (applySections secs st).constants.Pairwise (fun a b => eq a b = false)) := by
  refine ⟨applySections_names secs st, applySections_varnames secs st,
    applySections_freevars secs st, applySections_constants secs st, ?_⟩
  intro hpct hpw
  rw [applySections_constants]
  exact constDeclFold_pairwise _ _ hpct hpw

/-- C3 witness: declaring constants `1` and `True` and name `x`
against the empty state pools both constants (no merge, no
duplicates) and the single name. -/
theorem declared_sections_append_witness :
    (applySections [(str "CONSTS", [str "1", str "True"]), (str "NAMES", [str "x"])] {}).names
      = [str "x"]
    ∧ (applySections [(str "CONSTS", [str "1", str "True"]), (str "NAMES", [str "x"])] {}).constants
      = [Value.vint 1, Value.vbool true]
    ∧ (applySections [(str "CONSTS", [str "1", str "True"]), (str "NAMES", [str "x"])] {}).constants.Pairwise
        (fun a b => eq a b = false) := by
  have h := declared_sections_append
    [(str "CONSTS", [str "1", str "True"]), (str "NAMES", [str "x"])] {}
  refine ⟨h.1.trans (by decide), h.2.2.2.1.trans (by decide), ?_⟩
  refine h.2.2.2.2 (by decide) (by simp)

/-- C8: assembly is idempotent and stateless: each pass rebuilds the
code unit and both line-offset maps from the text buffer alone (the
embedding of the pass starts from the cleared state, mirroring the
`clear()` calls of lines 298-305), so a second pass over the
unchanged buffer returns an identical editor state, and the code unit
held before a pass has no influence on its result. -/
theorem assemble_idempotent_stateless (tbl : OpTable) (e : EditorSt) :
    editorUpdate tbl (editorUpdate tbl e) = editorUpdate tbl e
    ∧ ∀ c : CodeState,
        (editorUpdate tbl { src := e.src, code := c }).code = (editorUpdate tbl e).code := by
  exact ⟨rfl, fun _ => rfl⟩

/-- C6: container loading fails with the truncated-header error on
fewer than 16 bytes; in strict mode it fails with the magic-mismatch
error when the first 4 bytes differ from the expected magic and with
the unsupported-flags error when any bit above the low 2 bits of the
little-endian flags word is set; in forced mode both checks are
bypassed, the load succeeds whenever the payload decodes to a code
object, and a magic mismatch is recorded in the format descriptor. -/
theorem container_header_checks :
    (∀ (magic : List Nat) (decode : List Nat → Option PyCode) (data : List Nat) (force : Bool),
      data.length < 16 → read_pyc magic decode data force = .error .truncatedHeader)
    ∧ (∀ (magic : List Nat) (decode : List Nat → Option PyCode) (data : List Nat),
      16 ≤ data.length → data.take 4 ≠ magic →
      read_pyc magic decode data false = .error .magicMismatch)
    ∧ (∀ (magic : List Nat) (decode : List Nat → Option PyCode) (data : List Nat),
      16 ≤ data.length → data.take 4 = magic →
      andNotThree (leNat ((data.drop 4).take 4)) ≠ 0 →
      read_pyc magic decode data false = .error .unsupportedFlags)
    ∧ (∀ (magic : List Nat) (decode : List Nat → Option PyCode) (data : List Nat) (co : PyCode),
      16 ≤ data.length → decode (data.drop 16) = some co →
      read_pyc magic decode data true = .ok (data.take 16, co)
        ∧ (data.take 4 ≠ magic → hexedMark magic (data.take 16) = str "[HEXED!]")) := by
  have htake4 : ∀ data : List Nat, (data.take 16).take 4 = data.take 4 := by
    intro data
    rw [List.take_take]
    norm_num
  have hflags : ∀ data : List Nat, ((data.take 16).drop 4).take 4 = (data.drop 4).take 4 := by
    intro data
    rw [List.drop_take, List.take_take]
    norm_num
  refine ⟨?_, ?_, ?_, ?_⟩
  · intro magic decode data force hlen
    have h : (data.take 16).length < 16 := by
      rw [List.length_take]
      omega
    rw [read_pyc, if_pos h]
  · intro magic decode data hlen hmagic
    have h : ¬ (data.take 16).length < 16 := by
      rw [List.length_take]
      omega
    rw [read_pyc, if_neg h, if_pos ⟨by rw [htake4]; exact hmagic, rfl⟩]
  · intro magic decode data hlen hmagic hfl
    have h : ¬ (data.take 16).length < 16 := by
      rw [List.length_take]
      omega
    have h2 : ¬ ((data.take 16).take 4 ≠ magic ∧ false = false) := by
      rw [htake4]
      simp [hmagic]
    rw [read_pyc, if_neg h, if_neg h2, if_pos ⟨by rw [hflags]; exact hfl, rfl⟩]
  · intro magic decode data co hlen hdec
    have h : ¬ (data.take 16).length < 16 := by
      rw [List.length_take]
      omega
    constructor
    · rw [read_pyc, if_neg h, if_neg (by simp), if_neg (by simp), hdec]
    · intro hmagic
      simp [hexedMark, htake4, hmagic]

/-- C6 witness: a 3-byte input is truncated under both modes; an
all-zero 16-byte file against magic `[1,2,3,4]` is a strict magic
mismatch; a flags word of 4 under a matching magic is a strict
unsupported-flags failure; and the mismatching file force-loads
successfully with the `[HEXED!]` annotation. -/
theorem container_header_checks_witness :
    read_pyc [1, 2, 3, 4] (fun bs => if bs = [9] then some ⟨[], [], [], [], [], 0, 0, []⟩ else none)
      [0, 0, 0] false = .error .truncatedHeader
    ∧ read_pyc [1, 2, 3, 4] (fun bs => if bs = [9] then some ⟨[], [], [], [], [], 0, 0, []⟩ else none)
      (List.replicate 16 0 ++ [9]) false = .error .magicMismatch
    ∧ read_pyc [0, 0, 0, 0] (fun bs => if bs = [9] then some ⟨[], [], [], [], [], 0, 0, []⟩ else none)
      [0, 0, 0, 0, 4, 0, 0, 0, 0, 0, 0, 0, 0, 0, 0, 0] false = .error .unsupportedFlags
    ∧ read_pyc [1, 2, 3, 4] (fun bs => if bs = [9] then some ⟨[], [], [], [], [], 0, 0, []⟩ else none)
      (List.replicate 16 0 ++ [9]) true
      = .ok ((List.replicate 16 0 ++ [9]).take 16, ⟨[], [], [], [], [], 0, 0, []⟩)
    ∧ hexedMark [1, 2, 3, 4] ((List.replicate 16 0 ++ [9]).take 16) = str "[HEXED!]" := by
  refine ⟨?_, ?_, ?_, ?_, ?_⟩
  · exact container_header_checks.1 _ _ _ _ (by decide)
  · exact container_header_checks.2.1 _ _ _ (by decide) (by decide)
  · exact container_header_checks.2.2.1 _ _ _ (by decide) (by decide) (by decide)
  · have h := (container_header_checks.2.2.2 [1, 2, 3, 4]
      (fun bs => if bs = [9] then some ⟨[], [], [], [], [], 0, 0, []⟩ else none)
      (List.replicate 16 0 ++ [9]) ⟨[], [], [], [], [], 0, 0, []⟩ (by decide) (by decide)).1
    exact h
  · exact (container_header_checks.2.2.2 [1, 2, 3, 4]
      (fun bs => if bs = [9] then some ⟨[], [], [], [], [], 0, 0, []⟩ else none)
      (List.replicate 16 0 ++ [9]) ⟨[], [], [], [], [], 0, 0, []⟩ (by decide) (by decide)).2
      (by decide)

/-! ## The line-offset maps -/

theorem applySections_frame (secs : SecMap) (st : CodeState) :
    (applySections secs st).bytecode = st.bytecode
    ∧ (applySections secs st).lines = st.lines
    ∧ (applySections secs st).offsets = st.offsets
    ∧ (applySections secs st).bc = st.bc := by
  unfold applySections
  rcases lookupSec secs (str "CONSTS") with _ | a <;>
    rcases lookupSec secs (str "NAMES") with _ | b <;>
      rcases lookupSec secs (str "VARNAMES") with _ | c <;>
        rcases lookupSec secs (str "FREEVARS") with _ | d <;>
          exact ⟨rfl, rfl, rfl, rfl⟩

theorem bodyStep_maps_inv (tbl : OpTable) (iStart : Nat) (st : CodeState)
    (li : Nat) (tokens : List Token)
    (hoff : st.offsets = st.lines.map Prod.swap)
    (hfst : st.lines.map Prod.fst = List.range st.bc)
    (hpw : (st.lines.map Prod.snd).Pairwise (· < ·))
    (hbnd : ∀ x ∈ st.lines, x.2 < li + iStart) :
    (bodyStep tbl iStart st li tokens).offsets
        = (bodyStep tbl iStart st li tokens).lines.map Prod.swap
    ∧ (bodyStep tbl iStart st li tokens).lines.map Prod.fst
        = List.range (bodyStep tbl iStart st li tokens).bc
    ∧ ((bodyStep tbl iStart st li tokens).lines.map Prod.snd).Pairwise (· < ·)
    ∧ ∀ x ∈ (bodyStep tbl iStart st li tokens).lines, x.2 < li + iStart + 1 := by
  have hkeep : ∀ st2 : CodeState, st2.offsets = st.offsets → st2.lines = st.lines →
      st2.bc = st.bc →
      st2.offsets = st2.lines.map Prod.swap
      ∧ st2.lines.map Prod.fst = List.range st2.bc
      ∧ (st2.lines.map Prod.snd).Pairwise (· < ·)
      ∧ ∀ x ∈ st2.lines, x.2 < li + iStart + 1 := by
    intro st2 h1 h2 h3
    rw [h1, h2, h3]
    exact ⟨hoff, hfst, hpw, fun x hx => Nat.lt_succ_of_lt (hbnd x hx)⟩
  rcases tokens with _ | ⟨tok0, rest⟩
  · exact hkeep st rfl rfl rfl
  · by_cases hk : tok0.kind = TokKind.name
    · rcases hopm : tbl.opmap (pyStrip tok0.value) with _ | instr
      · simp only [bodyStep, hk, if_true, hopm]
        exact hkeep st rfl rfl rfl
      · rcases hres : resolveOperand tbl st instr (tok0 :: rest) with ⟨argOpt, st1⟩
        have frame := resolveOperand_frame tbl st instr (tok0 :: rest)
        rw [hres] at frame
        simp only at frame
        obtain ⟨hfb, hfl, hfo, hfc⟩ := frame
        simp only [bodyStep, hk, if_true, hopm, hres]
        rcases argOpt with _ | v
        · exact hkeep st1 hfo hfl hfc
        · by_cases hr : inRange256 v = true
          · simp only [hr, if_true]
            refine ⟨?_, ?_, ?_, ?_⟩
            · simp only [List.map_append, List.map_cons, List.map_nil]
              rw [hfo, hfl, hoff]
              rfl
            · simp only [List.map_append, List.map_cons, List.map_nil]
              rw [hfl, hfc, hfst, List.range_succ]
            · simp only [List.map_append, List.map_cons, List.map_nil]
              rw [hfl]
              rw [List.pairwise_append]
              refine ⟨hpw, by simp, ?_⟩
              intro a ha b hb
              rw [List.mem_singleton] at hb
              subst hb
              rw [List.mem_map] at ha
              obtain ⟨x, hx, rfl⟩ := ha
              exact hbnd x hx
            · intro x hx
              rw [List.mem_append] at hx
              rcases hx with hx | hx
              · rw [hfl] at hx
                exact Nat.lt_succ_of_lt (hbnd x hx)
              · rw [List.mem_singleton] at hx
                subst hx
                omega
          · have hr' : inRange256 v = false := by simpa using hr
            simp only [hr', Bool.false_eq_true, if_false]
            exact hkeep st1 hfo hfl hfc
    · simp only [bodyStep, hk, if_false]
      exact hkeep st rfl rfl rfl

theorem bodyFold_maps_inv (tbl : OpTable) (iStart : Nat) :
    ∀ (body : List (List Token)) (j : Nat) (st : CodeState),
      st.offsets = st.lines.map Prod.swap →
      st.lines.map Prod.fst = List.range st.bc →
      (st.lines.map Prod.snd).Pairwise (· < ·) →
      (∀ x ∈ st.lines, x.2 < j + iStart) →
      ((body.enumFrom j).foldl (fun s p => bodyStep tbl iStart s p.1 p.2) st).offsets
          = ((body.enumFrom j).foldl (fun s p => bodyStep tbl iStart s p.1 p.2) st).lines.map Prod.swap
      ∧ ((body.enumFrom j).foldl (fun s p => bodyStep tbl iStart s p.1 p.2) st).lines.map Prod.fst
          = List.range ((body.enumFrom j).foldl (fun s p => bodyStep tbl iStart s p.1 p.2) st).bc
      ∧ (((body.enumFrom j).foldl (fun s p => bodyStep tbl iStart s p.1 p.2) st).lines.map Prod.snd).Pairwise (· < ·)
      ∧ ∀ x ∈ ((body.enumFrom j).foldl (fun s p => bodyStep tbl iStart s p.1 p.2) st).lines,
          x.2 < j + body.length + iStart := by
  intro body
  induction body with
  | nil =>
    intro j st h1 h2 h3 h4
    exact ⟨h1, h2, h3, by simpa using h4⟩
  | cons tl rest ih =>
    intro j st h1 h2 h3 h4
    simp only [List.enumFrom, List.foldl_cons]
    have step := bodyStep_maps_inv tbl iStart st j tl h1 h2 h3 h4
    have hrec := ih (j + 1) (bodyStep tbl iStart st j tl) step.1 step.2.1 step.2.2.1
      (fun x hx => by have := step.2.2.2 x hx; omega)
    refine ⟨hrec.1, hrec.2.1, hrec.2.2.1, ?_⟩
    intro x hx
    have := hrec.2.2.2 x hx
    simp only [List.length_cons]
    omega

theorem lookup_mem {ps : List (Nat × Nat)} {a b : Nat}
    (h : ps.lookup a = some b) : (a, b) ∈ ps := by
  induction ps with
  | nil => simp [List.lookup] at h
  | cons p rest ih =>
    rcases p with ⟨k, v⟩
    by_cases hk : a = k
    · subst hk
      simp [List.lookup] at h
      simp [h]
    · have hbeq : (a == k) = false := by simp [hk]
      rw [List.lookup, hbeq] at h
      exact List.mem_cons.mpr (Or.inr (ih h))

theorem mem_lookup {ps : List (Nat × Nat)} {a b : Nat}
    (hnd : (ps.map Prod.fst).Nodup) (h : (a, b) ∈ ps) : ps.lookup a = some b := by
  induction ps with
  | nil => simp at h
  | cons p rest ih =>
    rcases p with ⟨k, v⟩
    rw [List.map_cons, List.nodup_cons] at hnd
    rcases List.mem_cons.mp h with heq | hmem
    · rw [Prod.mk.injEq] at heq
      have hbeq : (a == k) = true := by simp [heq.1]
      rw [List.lookup, hbeq, heq.2]
    · have hak : a ≠ k := by
        intro hc
        subst hc
        exact hnd.1 (List.mem_map.mpr ⟨(a, b), hmem, rfl⟩)
      have hbeq : (a == k) = false := by simp [hak]
      rw [List.lookup, hbeq]
      exact ih hnd.2 hmem

/-- C10: after every assembly pass the two line-offset maps are
mutual inverses — the offsets map is the transpose of the lines map,
every lines entry round-trips through offsets and vice versa — and
instruction indexes are assigned consecutively from 0 in strictly
increasing source-line order. -/
theorem line_offset_maps_inverse (tbl : OpTable) (src : List PyStr) :
    (updateCode tbl src).offsets = (updateCode tbl src).lines.map Prod.swap
    ∧ (updateCode tbl src).lines.map Prod.fst = List.range (updateCode tbl src).bc
    ∧ ((updateCode tbl src).lines.map Prod.snd).Pairwise (· < ·)
    ∧ (∀ k l, (updateCode tbl src).lines.lookup k = some l →
        (updateCode tbl src).offsets.lookup l = some k)
    ∧ (∀ l k, (updateCode tbl src).offsets.lookup l = some k →
        (updateCode tbl src).lines.lookup k = some l) := by
  obtain ⟨hoff, hfst, hpw⟩ :
      (updateCode tbl src).offsets = (updateCode tbl src).lines.map Prod.swap
      ∧ (updateCode tbl src).lines.map Prod.fst = List.range (updateCode tbl src).bc
      ∧ ((updateCode tbl src).lines.map Prod.snd).Pairwise (· < ·) := by
    rcases hex : extractSections ((parse src).length + 1) (parse src) 0 [] with ⟨secs, i⟩
    unfold updateCode
    dsimp only
    rw [hex]
    dsimp only
    have hframe := applySections_frame secs (bodyPass tbl i {} ((parse src).drop i))
    have hfold := bodyFold_maps_inv tbl i ((parse src).drop i) 0 {} rfl rfl (by simp) (by simp)
    rw [hframe.2.1, hframe.2.2.1, hframe.2.2.2]
    exact ⟨hfold.1, hfold.2.1, hfold.2.2.1⟩
  have hndL : ((updateCode tbl src).lines.map Prod.fst).Nodup := by
    rw [hfst]
    exact List.nodup_range _
  have hndO : ((updateCode tbl src).offsets.map Prod.fst).Nodup := by
    rw [hoff, List.map_map]
    have : (Prod.fst ∘ Prod.swap : Nat × Nat → Nat) = Prod.snd := rfl
    rw [this]
    exact hpw.imp Nat.ne_of_lt
  refine ⟨hoff, hfst, hpw, ?_, ?_⟩
  · intro k l h
    have hm := lookup_mem h
    have hmo : (l, k) ∈ (updateCode tbl src).offsets := by
      rw [hoff]
      exact List.mem_map.mpr ⟨(k, l), hm, rfl⟩
    exact mem_lookup hndO hmo
  · intro l k h
    have hm := lookup_mem h
    rw [hoff] at hm
    obtain ⟨x, hx, hswap⟩ := List.mem_map.mp hm
    have hxkl : x = (k, l) := by
      have h1 := congrArg Prod.fst hswap
      have h2 := congrArg Prod.snd hswap
      simp at h1 h2
      rcases x with ⟨x1, x2⟩
      simp_all
    subst hxkl
    exact mem_lookup hndL hx

/-! ## Character-class and scanning facts -/

theorem ws_toNat {c : Char} (h : isPyWS c = true) :
    c.toNat = 32 ∨ c.toNat = 9 ∨ c.toNat = 10 ∨ c.toNat = 13 ∨ c.toNat = 11 ∨ c.toNat = 12 := by
  simp only [isPyWS, Bool.or_eq_true, decide_eq_true_eq] at h
  rcases h with ((((rfl | rfl) | rfl) | rfl) | rfl) | rfl <;> decide

theorem upper_not_ws {c : Char} (h : isUpperU c = true) : isPyWS c = false := by
  simp only [isUpperU, Bool.or_eq_true, Bool.and_eq_true, decide_eq_true_eq] at h
  by_contra hws
  rw [Bool.not_eq_false] at hws
  have hv := ws_toNat hws
  rcases h with ⟨h1, h2⟩ | rfl
  · omega
  · have h95 : ('_' : Char).toNat = 95 := by decide
    omega

theorem digit_toNat {c : Char} (h : isDigitC c = true) :
    48 ≤ c.toNat ∧ c.toNat ≤ 57 := by
  simpa [isDigitC] using h

theorem digit_not_ws {c : Char} (h : isDigitC c = true) : isPyWS c = false := by
  have hd := digit_toNat h
  by_contra hws
  rw [Bool.not_eq_false] at hws
  have hv := ws_toNat hws
  omega

theorem toNat_ne {c d : Char} (h : c.toNat ≠ d.toNat) : c ≠ d :=
  fun hc => h (by rw [hc])

theorem span_loop_spec (p : Char → Bool) :
    ∀ (l acc : List Char),
      List.span.loop p l acc = (acc.reverse ++ l.takeWhile p, l.dropWhile p) := by
  intro l
  induction l with
  | nil => intro acc; simp [List.span.loop]
  | cons a as ih =>
    intro acc
    cases h : p a with
    | true => simp [List.span.loop, h, ih, List.takeWhile_cons, List.dropWhile_cons]
    | false => simp [List.span.loop, h, List.takeWhile_cons, List.dropWhile_cons]

theorem span_eq (p : Char → Bool) (l : List Char) :
    l.span p = (l.takeWhile p, l.dropWhile p) := by
  unfold List.span
  rw [span_loop_spec]
  simp

theorem takeWhile_append_all {p : Char → Bool} :
    ∀ {r : List Char} {s : List Char}, (∀ c ∈ r, p c = true) →
      (∀ c, s.head? = some c → p c = false) → (r ++ s).takeWhile p = r := by
  intro r
  induction r with
  | nil =>
    intro s _ hs
    rcases s with _ | ⟨c, t⟩
    · rfl
    · simp only [List.nil_append, List.takeWhile_cons, hs c rfl]
      rfl
  | cons a r ih =>
    intro s hr hs
    have ha : p a = true := hr a (by simp)
    rw [List.cons_append, List.takeWhile_cons, if_pos ha,
      ih (fun c hc => hr c (by simp [hc])) hs]

theorem dropWhile_append_all {p : Char → Bool} :
    ∀ {r : List Char} {s : List Char}, (∀ c ∈ r, p c = true) →
      (∀ c, s.head? = some c → p c = false) → (r ++ s).dropWhile p = s := by
  intro r
  induction r with
  | nil =>
    intro s _ hs
    rcases s with _ | ⟨c, t⟩
    · rfl
    · simp only [List.nil_append, List.dropWhile_cons, hs c rfl]
      rfl
  | cons a r ih =>
    intro s hr hs
    have ha : p a = true := hr a (by simp)
    rw [List.cons_append, List.dropWhile_cons, if_pos ha,
      ih (fun c hc => hr c (by simp [hc])) hs]

theorem span_append_all {p : Char → Bool} {r s : List Char}
    (hr : ∀ c ∈ r, p c = true) (hs : ∀ c, s.head? = some c → p c = false) :
    (r ++ s).span p = (r, s) := by
  rw [span_eq, takeWhile_append_all hr hs, dropWhile_append_all hr hs]

theorem dropWhile_cons_false {p : Char → Bool} {c : Char} {t : List Char}
    (h : p c = false) : (c :: t).dropWhile p = c :: t := by
  rw [List.dropWhile_cons, if_neg (by simp [h])]

/-! ## Decimal digits -/

theorem digitChar_toNat {m : Nat} (h : m < 10) : (digitChar m).toNat = 48 + m := by
  interval_cases m <;> decide

theorem digitChar_isDigit {m : Nat} (h : m < 10) : isDigitC (digitChar m) = true := by
  interval_cases m <;> decide

theorem digitsToNat_append_one (a : List Char) (d : Char) :
    digitsToNat (a ++ [d]) = 10 * digitsToNat a + (d.toNat - 48) := by
  unfold digitsToNat
  rw [List.foldl_append]
  rfl

theorem natToDigitsAux_spec :
    ∀ (fuel n : Nat), n < fuel →
      (natToDigitsAux fuel n ≠ []
        ∧ (∀ c ∈ natToDigitsAux fuel n, isDigitC c = true)
        ∧ digitsToNat (natToDigitsAux fuel n) = n
        ∧ (1 ≤ n → ∃ c t, natToDigitsAux fuel n = c :: t ∧ 49 ≤ c.toNat ∧ c.toNat ≤ 57)) := by
  intro fuel
  induction fuel with
  | zero => intro n h; omega
  | succ f ih =>
    intro n hn
    by_cases h10 : n < 10
    · rw [natToDigitsAux, if_pos h10]
      refine ⟨by simp, ?_, ?_, ?_⟩
      · intro c hc
        rw [List.mem_singleton] at hc
        subst hc
        exact digitChar_isDigit h10
      · show digitsToNat ([] ++ [digitChar n]) = n
        rw [digitsToNat_append_one, digitChar_toNat h10]
        simp [digitsToNat]
      · intro h1
        exact ⟨digitChar n, [], rfl, by rw [digitChar_toNat h10]; omega,
          by rw [digitChar_toNat h10]; omega⟩
    · have hdiv : n / 10 < f := by omega
      have hrec := ih (n / 10) hdiv
      rw [natToDigitsAux, if_neg h10]
      obtain ⟨hne, hall, hval, hhead⟩ := hrec
      have hm10 : n % 10 < 10 := Nat.mod_lt n (by omega)
      refine ⟨by simp, ?_, ?_, ?_⟩
      · intro c hc
        rw [List.mem_append] at hc
        rcases hc with hc | hc
        · exact hall c hc
        · rw [List.mem_singleton] at hc
          subst hc
          exact digitChar_isDigit hm10
      · rw [digitsToNat_append_one, hval, digitChar_toNat hm10]
        omega
      · intro _
        obtain ⟨c, t, heq, hc1, hc2⟩ := hhead (by omega)
        exact ⟨c, t ++ [digitChar (n % 10)], by rw [heq]; rfl, hc1, hc2⟩

theorem natToDigits_ne_nil (n : Nat) : natToDigits n ≠ [] :=
  (natToDigitsAux_spec (n + 1) n (by omega)).1

theorem natToDigits_all_digits (n : Nat) : ∀ c ∈ natToDigits n, isDigitC c = true :=
  (natToDigitsAux_spec (n + 1) n (by omega)).2.1

theorem digitsToNat_natToDigits (n : Nat) : digitsToNat (natToDigits n) = n :=
  (natToDigitsAux_spec (n + 1) n (by omega)).2.2.1

theorem natToDigits_head_pos {n : Nat} (h : 1 ≤ n) :
    ∃ c t, natToDigits n = c :: t ∧ 49 ≤ c.toNat ∧ c.toNat ≤ 57 :=
  (natToDigitsAux_spec (n + 1) n (by omega)).2.2.2 h

theorem digitRun_complete (p : Char → Bool) (hp : p '_' = false) :
    ∀ l, (∀ c ∈ l, p c = true) → digitRun p l = (l, []) := by
  intro l
  induction l with
  | nil => intro _; rfl
  | cons c rest ih =>
    intro hall
    have hc : p c = true := hall c (by simp)
    have hcu : c ≠ '_' := fun hcc => by rw [hcc] at hc; rw [hp] at hc; exact absurd hc (by simp)
    rw [digitRun.eq_def]
    dsimp only
    rw [if_neg hcu, if_pos hc, ih (fun d hd => hall d (by simp [hd]))]

theorem intnumberMatch_digits (n : Nat) :
    intnumberMatch (natToDigits n) = some (natToDigits n, []) := by
  by_cases h0 : n = 0
  · subst h0
    decide
  · obtain ⟨c, t, heq, hc1, hc2⟩ := @natToDigits_head_pos n (by omega)
    have hall := natToDigits_all_digits n
    rw [heq] at hall ⊢
    have hc0 : c ≠ '0' := by
      intro hcc
      rw [hcc] at hc1
      revert hc1
      decide
    simp only [intnumberMatch]
    rw [if_neg hc0, if_pos (by simp only [Bool.and_eq_true, decide_eq_true_eq]; omega)]
    rw [digitRun_complete isDigitC (by decide) t (fun d hd => hall d (by simp [hd]))]

theorem skipWS_cons_false {c : Char} {t : List Char}
    (h : (c = ' ' || c = '\t') = false) : skipWS (c :: t) = c :: t := by
  unfold skipWS
  rw [List.dropWhile_cons, if_neg (by simp_all)]

theorem char_ne_small {c : Char} {d : Char} (hd : 48 ≤ c.toNat) (hsmall : d.toNat < 48) :
    c ≠ d := by
  intro hc
  rw [hc] at hd
  omega

theorem digit_skipWS {c : Char} (hd : isDigitC c = true) (t : List Char) :
    skipWS (c :: t) = c :: t := by
  have hv := digit_toNat hd
  refine skipWS_cons_false ?_
  have h1 : c ≠ ' ' := char_ne_small hv.1 (by decide)
  have h2 : c ≠ '\t' := char_ne_small hv.1 (by decide)
  simp [h1, h2]

theorem parseExpr_digits (fuel : Nat) (hf : 0 < fuel) (d : List Char) (hne : d ≠ [])
    (hall : ∀ c ∈ d, isDigitC c = true) :
    parseExpr fuel d = some (.vint (digitsToNat d), []) := by
  rcases fuel with _ | f
  · omega
  rcases d with _ | ⟨c, t⟩
  · exact absurd rfl hne
  have hc := hall c (by simp)
  have hv := digit_toNat hc
  rw [parseExpr, digit_skipWS hc t]
  dsimp only
  have h1 : c ≠ '-' := char_ne_small hv.1 (by decide)
  have h2 : c ≠ '+' := char_ne_small hv.1 (by decide)
  have h3 : c ≠ '\'' := char_ne_small hv.1 (by decide)
  have h4 : c ≠ '"' := char_ne_small hv.1 (by decide)
  rw [if_neg h1, if_neg h2, if_neg h3, if_neg h4, if_pos hc]
  have hspan : (c :: t).span isDigitC = (c :: t, []) := by
    have := @span_append_all isDigitC (c :: t) [] hall
      (by intro x hx; simp at hx)
    simpa using this
  rw [hspan]
  simp [headIsIdentOrDot]

theorem evaluate_digits (n : Nat) : evaluate (natToDigits n) = some (.vint n) := by
  rcases hd : natToDigits n with _ | ⟨c, t⟩
  · exact absurd hd (natToDigits_ne_nil n)
  have hall := natToDigits_all_digits n
  rw [hd] at hall
  have hc := hall c (by simp)
  have hv := digit_toNat hc
  unfold evaluate
  have hne : (c :: t).head? ≠ some '%' := by
    intro hcc
    rw [List.head?_cons, Option.some.injEq] at hcc
    exact char_ne_small hv.1 (by decide) hcc
  rw [if_neg hne]
  have hl : pyLstripST (c :: t) = c :: t := digit_skipWS hc t
  dsimp only
  rw [hl, parseExpr_digits ((c :: t).length + 1) (by omega) (c :: t) (by simp) hall]
  dsimp only
  rw [← hd, digitsToNat_natToDigits]
  rfl

theorem evaluate_intRepr (m : Int) : evaluate (intRepr m) = some (.vint m) := by
  rcases m with n | k
  · exact evaluate_digits n
  · show evaluate ('-' :: natToDigits (k + 1)) = some (.vint (Int.negSucc k))
    unfold evaluate
    rw [if_neg (by simp only [List.head?_cons, Option.some.injEq]; decide)]
    have hl : pyLstripST ('-' :: natToDigits (k + 1)) = '-' :: natToDigits (k + 1) := by
      unfold pyLstripST
      rw [List.dropWhile_cons, if_neg (by simp)]
    dsimp only
    rw [hl]
    simp only [List.length_cons]
    rw [parseExpr]
    have hskip : skipWS ('-' :: natToDigits (k + 1)) = '-' :: natToDigits (k + 1) := by
      refine skipWS_cons_false ?_
      decide
    rw [hskip]
    dsimp only
    rw [if_pos rfl, parseExpr_digits ((natToDigits (k + 1)).length + 1)
        (by omega) (natToDigits (k + 1)) (natToDigits_ne_nil (k + 1))
        (natToDigits_all_digits (k + 1))]
    dsimp only [negV]
    rw [digitsToNat_natToDigits]
    show some (Value.vint (-((k + 1 : Nat) : Int))) = some (Value.vint (Int.negSucc k))
    congr 1

theorem reprRoundtrips_vint (m : Int) : reprRoundtrips (.vint m) := by
  refine ⟨?_, ?_, evaluate_intRepr m⟩
  · show pyLstrip (intRepr m) = intRepr m
    rcases m with n | k
    · show pyLstrip (natToDigits n) = natToDigits n
      rcases hd : natToDigits n with _ | ⟨c, t⟩
      · rfl
      · have hall := natToDigits_all_digits n
        rw [hd] at hall
        have hc := hall c (by simp)
        unfold pyLstrip
        exact dropWhile_cons_false (digit_not_ws hc)
    · show pyLstrip ('-' :: natToDigits (k + 1)) = '-' :: natToDigits (k + 1)
      unfold pyLstrip
      exact dropWhile_cons_false (by decide)
  · show (intRepr m).head? ≠ some '%'
    rcases m with n | k
    · show (natToDigits n).head? ≠ some '%'
      rcases hd : natToDigits n with _ | ⟨c, t⟩
      · exact absurd hd (natToDigits_ne_nil n)
      · have hall := natToDigits_all_digits n
        rw [hd] at hall
        have hv := digit_toNat (hall c (by simp))
        intro hcc
        rw [List.head?_cons, Option.some.injEq] at hcc
        exact char_ne_small hv.1 (by decide) hcc
    · show ('-' :: natToDigits (k + 1)).head? ≠ some '%'
      intro hcc
      rw [List.head?_cons, Option.some.injEq] at hcc
      revert hcc
      decide

theorem reprRoundtrips_vbool (b : Bool) : reprRoundtrips (.vbool b) := by
  cases b <;> exact ⟨by decide, by decide, by decide⟩

theorem reprRoundtrips_vnone : reprRoundtrips .vnone :=
  ⟨by decide, by decide, by decide⟩

theorem reprRoundtrips_vellipsis : reprRoundtrips .vellipsis :=
  ⟨by decide, by decide, by decide⟩

/-! ## Tokenizing the disassembler's output lines -/

theorem upper_toNat {c : Char} (h : isUpperU c = true) :
    65 ≤ c.toNat ∧ c.toNat ≤ 95 := by
  simp only [isUpperU, Bool.or_eq_true, Bool.and_eq_true, decide_eq_true_eq] at h
  rcases h with ⟨h1, h2⟩ | rfl
  · omega
  · constructor <;> decide

theorem char_ne_of_upper {c : Char} {d : Char} (h : isUpperU c = true)
    (hd : d.toNat < 65) : c ≠ d := by
  have hv := upper_toNat h
  intro hc
  rw [hc] at hv
  omega

theorem tokenizeAux_nil (fuel : Nat) : tokenizeAux fuel [] = [] := by
  cases fuel <;> rfl

theorem span_upper_head_not {c : Char} {t : List Char} (h : isUpperU c = false) :
    (c :: t).span isUpperU = ([], c :: t) := by
  have := @span_append_all isUpperU [] (c :: t) (by simp)
    (by intro x hx; rw [List.head?_cons, Option.some.injEq] at hx; subst hx; exact h)
  simpa using this

theorem span_ws_head_not {c : Char} {t : List Char} (h : isPyWS c = false) :
    (c :: t).span isPyWS = ([], c :: t) := by
  have := @span_append_all isPyWS [] (c :: t) (by simp)
    (by intro x hx; rw [List.head?_cons, Option.some.injEq] at hx; subst hx; exact h)
  simpa using this

theorem pyStrip_upper_ws {r sp : PyStr} (hne : r ≠ [])
    (hr : ∀ c ∈ r, isUpperU c = true) (hsp : ∀ c ∈ sp, isPyWS c = true) :
    pyStrip (r ++ sp) = r := by
  unfold pyStrip
  have hl : pyLstrip (r ++ sp) = r ++ sp := by
    rcases r with _ | ⟨c0, r'⟩
    · exact absurd rfl hne
    · rw [List.cons_append]
      exact dropWhile_cons_false (upper_not_ws (hr c0 (by simp)))
  rw [hl]
  unfold pyRstrip
  rw [List.reverse_append]
  have hdrop : (sp.reverse ++ r.reverse).dropWhile isPyWS = r.reverse := by
    refine dropWhile_append_all (fun c hc => hsp c (List.mem_reverse.mp hc)) ?_
    intro c hc
    rcases hrev : r.reverse with _ | ⟨cl, tl⟩
    · exact absurd (by rw [← List.reverse_reverse r, hrev]; rfl) hne
    · rw [hrev, List.head?_cons, Option.some.injEq] at hc
      have hmem : cl ∈ r := List.mem_reverse.mp (by rw [hrev]; simp)
      rw [← hc]
      exact upper_not_ws (hr cl hmem)
  rw [hdrop, List.reverse_reverse]

theorem tokenizeAux_instr_arm (fuel : Nat) (r d : PyStr)
    (hrne : r ≠ []) (hupper : ∀ c ∈ r, isUpperU c = true)
    (hfuel : (r ++ ' ' :: '%' :: d).length < fuel)
    (hdne : d ≠ []) (hdd : ∀ c ∈ d, isDigitC c = true)
    (hmatch : intnumberMatch d = some (d, [])) :
    tokenizeAux fuel (r ++ ' ' :: '%' :: d)
      = [⟨TokKind.name, r ++ [' ']⟩, ⟨TokKind.op, ['%']⟩, ⟨TokKind.const, d⟩] := by
  rcases fuel with _ | f
  · simp at hfuel
  rcases r with _ | ⟨c0, r'⟩
  · exact absurd rfl hrne
  rw [List.cons_append, tokenizeAux]
  have hc0 := hupper c0 (by simp)
  rw [if_neg (char_ne_of_upper hc0 (by decide))]
  have hspan : (c0 :: (r' ++ ' ' :: '%' :: d)).span isUpperU = (c0 :: r', ' ' :: '%' :: d) := by
    rw [← List.cons_append]
    exact span_append_all hupper
      (by intro x hx; rw [List.head?_cons, Option.some.injEq] at hx; subst hx; decide)
  rw [hspan]
  dsimp only
  rw [if_pos (by simp [headIsWS]; decide)]
  have hspan2 : (' ' :: '%' :: d).span isPyWS = ([' '], '%' :: d) := by
    have := @span_append_all isPyWS [' '] ('%' :: d) (by decide)
      (by intro x hx; rw [List.head?_cons, Option.some.injEq] at hx; subst hx; decide)
    simpa using this
  rw [hspan2]
  dsimp only
  congr 1
  have hf2 : 0 < f := by simp at hfuel; omega
  rcases f with _ | f2
  · omega
  rw [tokenizeAux]
  rw [if_neg (by decide : ¬ ('%' : Char) = '#')]
  rw [span_upper_head_not (by decide)]
  dsimp only
  rw [if_neg (by simp)]
  rw [if_neg (by decide : ¬ ('%' : Char) = '@'), if_pos rfl]
  have hspan3 : d.span isPyWS = ([], d) := by
    rcases d with _ | ⟨cd, td⟩
    · exact absurd rfl hdne
    · exact span_ws_head_not (digit_not_ws (hdd cd (by simp)))
  rw [hspan3]
  dsimp only
  rw [hmatch]
  dsimp only
  rw [tokenizeAux_nil]

theorem tokenizeAux_instr_bare (fuel : Nat) (r : PyStr)
    (hrne : r ≠ []) (hupper : ∀ c ∈ r, isUpperU c = true)
    (hfuel : r.length < fuel) :
    tokenizeAux fuel r = [⟨TokKind.name, r⟩] := by
  rcases fuel with _ | f
  · simp at hfuel
  rcases r with _ | ⟨c0, r'⟩
  · exact absurd rfl hrne
  rw [tokenizeAux]
  have hc0 := hupper c0 (by simp)
  rw [if_neg (char_ne_of_upper hc0 (by decide))]
  have hspan : (c0 :: r').span isUpperU = (c0 :: r', []) := by
    have := @span_append_all isUpperU (c0 :: r') [] hupper
      (by intro x hx; simp at hx)
    simpa using this
  rw [hspan]
  dsimp only
  rw [if_pos (by simp)]
  rw [show ([] : List Char).span isPyWS = ([], []) from rfl]
  dsimp only
  rw [tokenizeAux_nil]
  simp

theorem tokenizeBody_instrLine (tbl : OpTable) (p : Nat × Nat)
    (hv : validOp tbl p.1) :
    tokenizeBody (instrLine tbl p)
      = if tbl.haveArgument ≤ p.1 || p.2 ≠ 0 then
          [⟨TokKind.name, tbl.opname p.1 ++ [' ']⟩, ⟨TokKind.op, ['%']⟩,
            ⟨TokKind.const, natToDigits p.2⟩]
        else [⟨TokKind.name, tbl.opname p.1⟩] := by
  obtain ⟨hne, hupper, _⟩ := hv
  unfold instrLine tokenizeBody
  by_cases hc : (tbl.haveArgument ≤ p.1 || p.2 ≠ 0) = true
  · rw [if_pos hc, if_pos hc]
    have heq : tbl.opname p.1 ++ str " %" ++ natToDigits p.2
        = tbl.opname p.1 ++ ' ' :: '%' :: natToDigits p.2 := by
      rw [List.append_assoc]
      rfl
    rw [heq]
    exact tokenizeAux_instr_arm _ _ _ hne hupper (by omega) (natToDigits_ne_nil p.2)
      (natToDigits_all_digits p.2) (intnumberMatch_digits p.2)
  · have hA : ¬ tbl.haveArgument ≤ p.1 := by
      intro hA
      rw [decide_eq_true hA] at hc
      simp at hc
    have hB : p.2 = 0 := by
      by_contra hB
      rw [decide_eq_true hB] at hc
      simp at hc
    rw [if_neg (by simp [hA, hB]), if_neg (by simp [hA, hB])]
    exact tokenizeAux_instr_bare _ _ hne hupper (by omega)

/-! ## The body pass over disassembled instruction lines -/

theorem bodyStep_sect (tbl : OpTable) (iStart : Nat) (st : CodeState) (li : Nat)
    (v : PyStr) (rest : List Token) :
    bodyStep tbl iStart st li (⟨TokKind.sect, v⟩ :: rest) = st := by
  simp [bodyStep]

theorem bodyStep_instr (tbl : OpTable) (iStart : Nat) (st : CodeState) (li : Nat)
    (p : Nat × Nat) (hv : validOp tbl p.1) (ha : p.2 < 256) :
    bodyStep tbl iStart st li (tokenizeBody (instrLine tbl p))
      = { st with
          bytecode := st.bytecode ++ [p.1, p.2]
          lines := st.lines ++ [(st.bc, li + iStart)]
          offsets := st.offsets ++ [(li + iStart, st.bc)]
          bc := st.bc + 1 } := by
  obtain ⟨hne, hupper, hmap⟩ := hv
  rw [tokenizeBody_instrLine tbl p ⟨hne, hupper, hmap⟩]
  by_cases hc : (tbl.haveArgument ≤ p.1 || p.2 ≠ 0) = true
  · rw [if_pos hc]
    have hstrip : pyStrip (tbl.opname p.1 ++ [' ']) = tbl.opname p.1 :=
      pyStrip_upper_ws hne hupper (by decide)
    have hres : resolveOperand tbl st p.1
        [⟨TokKind.name, tbl.opname p.1 ++ [' ']⟩, ⟨TokKind.op, ['%']⟩,
          ⟨TokKind.const, natToDigits p.2⟩]
        = (some (.vint (p.2 : Int)), st) := by
      have h0 : resolveOperand tbl st p.1
          [⟨TokKind.name, tbl.opname p.1 ++ [' ']⟩, ⟨TokKind.op, ['%']⟩,
            ⟨TokKind.const, natToDigits p.2⟩]
          = (evaluate (natToDigits p.2), st) := rfl
      rw [h0, evaluate_digits p.2]
    simp only [bodyStep, hstrip, hmap]
    rw [hres]
    have hrange : inRange256 (.vint (p.2 : Int)) = true := by
      simp only [inRange256, pyIntVal]
      simp
      omega
    simp only [hrange, if_true]
    have hbyte : toByte (.vint (p.2 : Int)) = p.2 := by
      simp [toByte, pyIntVal]
    rw [hbyte]
  · have hA : ¬ tbl.haveArgument ≤ p.1 := by
      intro hA
      rw [decide_eq_true hA] at hc
      simp at hc
    have hB : p.2 = 0 := by
      by_contra hB
      rw [decide_eq_true hB] at hc
      simp at hc
    rw [if_neg (by simp [hA, hB])]
    have hstrip : pyStrip (tbl.opname p.1) = tbl.opname p.1 := by
      have := @pyStrip_upper_ws _ [] hne hupper (by intro c hcm; simp at hcm)
      simpa using this
    simp only [bodyStep, hstrip, hmap]
    have hres : resolveOperand tbl st p.1 [⟨TokKind.name, tbl.opname p.1⟩]
        = (some (.vint 0), st) := rfl
    rw [hres]
    have hrange : inRange256 (Value.vint 0) = true := by decide
    simp only [hrange, if_true]
    have hbyte : toByte (Value.vint 0) = p.2 := by
      rw [hB]
      decide
    rw [hbyte]

theorem bodyFold_instr_lines (tbl : OpTable) (iStart : Nat) :
    ∀ (code : List (Nat × Nat)) (j : Nat) (st : CodeState),
      (∀ p ∈ code, validOp tbl p.1 ∧ p.2 < 256) →
      (((code.map (fun p => tokenizeBody (instrLine tbl p))).enumFrom j).foldl
          (fun s q => bodyStep tbl iStart s q.1 q.2) st).bytecode
          = st.bytecode ++ flattenPairs code
      ∧ (((code.map (fun p => tokenizeBody (instrLine tbl p))).enumFrom j).foldl
          (fun s q => bodyStep tbl iStart s q.1 q.2) st).constants = st.constants
      ∧ (((code.map (fun p => tokenizeBody (instrLine tbl p))).enumFrom j).foldl
          (fun s q => bodyStep tbl iStart s q.1 q.2) st).names = st.names
      ∧ (((code.map (fun p => tokenizeBody (instrLine tbl p))).enumFrom j).foldl
          (fun s q => bodyStep tbl iStart s q.1 q.2) st).varnames = st.varnames
      ∧ (((code.map (fun p => tokenizeBody (instrLine tbl p))).enumFrom j).foldl
          (fun s q => bodyStep tbl iStart s q.1 q.2) st).freevars = st.freevars := by
  intro code
  induction code with
  | nil =>
    intro j st _
    exact ⟨by simp [flattenPairs], rfl, rfl, rfl, rfl⟩
  | cons p rest ih =>
    intro j st hall
    have hp := hall p (by simp)
    simp only [List.map_cons, List.enumFrom, List.foldl_cons]
    rw [bodyStep_instr tbl iStart st j p hp.1 hp.2]
    have hrec := ih (j + 1)
      { st with
        bytecode := st.bytecode ++ [p.1, p.2]
        lines := st.lines ++ [(st.bc, j + iStart)]
        offsets := st.offsets ++ [(j + iStart, st.bc)]
        bc := st.bc + 1 }
      (fun q hq => hall q (by simp [hq]))
    refine ⟨?_, ?_, ?_, ?_, ?_⟩
    · rw [hrec.1]
      show st.bytecode ++ [p.1, p.2] ++ flattenPairs rest = _
      rw [List.append_assoc]
      rfl
    · rw [hrec.2.1]
    · rw [hrec.2.2.1]
    · rw [hrec.2.2.2.1]
    · rw [hrec.2.2.2.2]

/-! ## Scanning the disassembled header -/

theorem sectionMatch_upper {s : PyStr} (r : PyStr) (hne : s ≠ [])
    (hupper : ∀ c ∈ s, isUpperU c = true) :
    sectionMatch (s ++ ':' :: r) = some (s, r) := by
  unfold sectionMatch
  rw [span_append_all hupper
    (by intro x hx; rw [List.head?_cons, Option.some.injEq] at hx; subst hx; decide)]
  show (if s.isEmpty = true then none else some (s, r)) = some (s, r)
  rw [if_neg (by simpa using hne)]

theorem sectionMatch_head_other {c : Char} {t : PyStr} (hup : isUpperU c = false)
    (hc : c ≠ ':') : sectionMatch (c :: t) = none := by
  unfold sectionMatch
  rw [span_upper_head_not hup]
  dsimp only
  split
  · rename_i heq
    rw [List.cons.injEq] at heq
    exact absurd heq.1 hc
  · rfl

theorem sectionMatch_indent {e : PyStr} (h : startsIndent e = true) :
    sectionMatch e = none := by
  rcases e with _ | ⟨c, t⟩
  · simp [startsIndent] at h
  · simp only [startsIndent, Bool.or_eq_true, decide_eq_true_eq] at h
    rcases h with rfl | rfl
    · exact sectionMatch_head_other (by decide) (by decide)
    · exact sectionMatch_head_other (by decide) (by decide)

theorem headerScan_section {ln : PyStr} {s after : PyStr}
    (hmatch : sectionMatch ln = some (s, after)) (rest : List PyStr) (i bp : Nat) :
    headerScan (ln :: rest) i bp
      = ((⟨TokKind.sect, s⟩ :: ⟨TokKind.op, str ":"⟩ ::
            (if after.isEmpty then [] else [⟨TokKind.field, after⟩]))
          :: (headerScan rest (i + 1) (i + 1)).1,
         (headerScan rest (i + 1) (i + 1)).2) := by
  rw [headerScan, hmatch]

theorem headerScan_field {ln : PyStr} (hind : startsIndent ln = true)
    (rest : List PyStr) (i bp : Nat) (hbp : bp ≠ 0) :
    headerScan (ln :: rest) i bp
      = ([⟨TokKind.field, ln⟩] :: (headerScan rest (i + 1) (bp + 1)).1,
         (headerScan rest (i + 1) (bp + 1)).2) := by
  rw [headerScan, sectionMatch_indent hind]
  dsimp only
  rw [if_pos (by simp [hbp, hind])]

theorem headerScan_stop {ln : PyStr} (hsec : sectionMatch ln = none)
    (hind : startsIndent ln = false) (rest : List PyStr) (i bp : Nat) :
    headerScan (ln :: rest) i bp = ([], bp) := by
  rw [headerScan, hsec]
  dsimp only
  rw [if_neg (by simp [hind])]

theorem headerScan_fields :
    ∀ (es : List PyStr) (rest : List PyStr) (i bp : Nat), bp ≠ 0 →
      (∀ e ∈ es, startsIndent e = true) →
      headerScan (es ++ rest) i bp
        = ((es.map (fun e => [⟨TokKind.field, e⟩]))
            ++ (headerScan rest (i + es.length) (bp + es.length)).1,
           (headerScan rest (i + es.length) (bp + es.length)).2) := by
  intro es
  induction es with
  | nil => intro rest i bp _ _; simp
  | cons e es ih =>
    intro rest i bp hbp hall
    rw [List.cons_append, headerScan_field (hall e (by simp)) _ i bp hbp]
    rw [ih rest (i + 1) (bp + 1) (by omega) (fun x hx => hall x (by simp [hx]))]
    have hidx : i + 1 + es.length = i + (e :: es).length := by
      simp [List.length_cons]
      omega
    have hbpx : bp + 1 + es.length = bp + (e :: es).length := by
      simp [List.length_cons]
      omega
    rw [hidx, hbpx]
    simp [List.map_cons]

theorem headerScan_blocks :
    ∀ (blocks : List (PyStr × List PyStr)) (rest : List PyStr) (i : Nat),
      (∀ b ∈ blocks, (b.1 ≠ [] ∧ ∀ c ∈ b.1, isUpperU c = true)
        ∧ ∀ e ∈ b.2, startsIndent e = true) →
      headerScan (((blocks.map blockLines).flatten) ++ rest) i i
        = ((blocks.map blockParsed).flatten
            ++ (headerScan rest (i + ((blocks.map blockLines).flatten).length)
                (i + ((blocks.map blockLines).flatten).length)).1,
           (headerScan rest (i + ((blocks.map blockLines).flatten).length)
                (i + ((blocks.map blockLines).flatten).length)).2) := by
  intro blocks
  induction blocks with
  | nil => intro rest i _; simp
  | cons b bs ih =>
    intro rest i hwf
    have hb := hwf b (by simp)
    simp only [List.map_cons, List.flatten_cons, blockLines, List.append_assoc,
      List.cons_append]
    rw [headerScan_section (sectionMatch_upper [] hb.1.1 hb.1.2) _ i i]
    rw [headerScan_fields b.2 _ (i + 1) (i + 1) (by omega) hb.2]
    rw [ih rest (i + 1 + b.2.length) (fun x hx => hwf x (by simp [hx]))]
    have hlen : i + 1 + b.2.length + ((bs.map blockLines).flatten).length
        = i + ((b.1 ++ [':']) :: (b.2 ++ (bs.map blockLines).flatten)).length := by
      simp [List.length_cons, List.length_append]
      omega
    rw [hlen]
    simp [blockParsed]

/-! ## Extracting the declared sections -/

theorem takeFields_nonfield {rest : List (List Token)}
    (hstop : ∀ tk tl rs, rest = (tk :: tl) :: rs → tk.kind ≠ TokKind.field) :
    takeFields rest = ([], rest, 0) := by
  rcases rest with _ | ⟨l, rs⟩
  · rfl
  rcases l with _ | ⟨tk, tl⟩
  · rfl
  rcases tk with ⟨k, v⟩
  have hk := hstop ⟨k, v⟩ tl rs rfl
  cases k
  case field => exact absurd rfl hk
  all_goals rfl

theorem takeFields_fields :
    ∀ (fs : List PyStr) (rest : List (List Token)),
      (∀ tk tl rs, rest = (tk :: tl) :: rs → tk.kind ≠ TokKind.field) →
      takeFields ((fs.map (fun f => [⟨TokKind.field, f⟩])) ++ rest)
        = (fs.map pyLstrip, rest, fs.length) := by
  intro fs
  induction fs with
  | nil => intro rest h; simpa using takeFields_nonfield h
  | cons f fs ih =>
    intro rest h
    simp only [List.map_cons, List.cons_append, takeFields, List.append_eq]
    rw [ih rest h]
    simp

theorem extractSections_inline {f v : PyStr} {rest : List (List Token)}
    (hsuf : pyRemoveSuffix f (str ":") = f) (fuel i : Nat) (m : SecMap) :
    extractSections (fuel + 1)
        ((⟨TokKind.sect, f⟩ :: ⟨TokKind.op, str ":"⟩ :: [⟨TokKind.field, v⟩]) :: rest) i m
      = (setSec m f [pyLstrip v], i + 1) := by
  rw [extractSections]
  dsimp only
  rw [hsuf]
  rw [dif_pos (by simp)]
  rfl

theorem extract_chain :
    ∀ (blocks : List (PyStr × List PyStr)) (fuel : Nat) (f v : PyStr)
      (rest : List (List Token)) (i : Nat) (m : SecMap),
      blocks.length < fuel →
      (∀ b ∈ blocks, pyRemoveSuffix b.1 (str ":") = b.1) →
      pyRemoveSuffix f (str ":") = f →
      extractSections fuel
          ((blocks.map blockParsed).flatten
            ++ (⟨TokKind.sect, f⟩ :: ⟨TokKind.op, str ":"⟩ :: [⟨TokKind.field, v⟩]) :: rest)
          i m
        = (setSec (blocks.foldl (fun acc b => setSec acc b.1 (b.2.map pyLstrip)) m) f [pyLstrip v],
           i + ((blocks.map blockParsed).flatten).length + 1) := by
  intro blocks
  induction blocks with
  | nil =>
    intro fuel f v rest i m hfuel _ hsuf
    rcases fuel with _ | fl
    · omega
    simpa using extractSections_inline hsuf fl i m
  | cons b bs ih =>
    intro fuel f v rest i m hfuel hsufs hsuf
    rcases fuel with _ | fl
    · omega
    simp only [List.map_cons, List.flatten_cons, blockParsed, List.cons_append,
      List.append_assoc]
    rw [extractSections]
    dsimp only
    rw [hsufs b (by simp)]
    rw [dif_neg (by simp)]
    have hstop : ∀ tk tl rs,
        ((bs.map blockParsed).flatten
          ++ (⟨TokKind.sect, f⟩ :: ⟨TokKind.op, str ":"⟩ :: [⟨TokKind.field, v⟩]) :: rest)
          = (tk :: tl) :: rs → tk.kind ≠ TokKind.field := by
      intro tk tl rs heq
      rcases bs with _ | ⟨b2, bs2⟩
      · simp only [List.map_nil, List.flatten_nil, List.nil_append, List.cons.injEq] at heq
        rw [← heq.1.1]
        simp
      · simp only [List.map_cons, List.flatten_cons, blockParsed, List.cons_append,
          List.cons.injEq] at heq
        rw [← heq.1.1]
        simp
    rw [takeFields_fields b.2 _ hstop]
    rw [ih fl f v rest (i + 1 + b.2.length) (setSec m b.1 (b.2.map pyLstrip))
      (by simp at hfuel ⊢; omega) (fun x hx => hsufs x (by simp [hx])) hsuf]
    rw [List.foldl_cons]
    refine Prod.ext rfl ?_
    simp [List.length_cons, List.length_append]
    omega

theorem lookupSec_setSec_same : ∀ (m : SecMap) (k : PyStr) (v : List PyStr),
    lookupSec (setSec m k v) k = some v := by
  intro m
  induction m with
  | nil => intro k v; simp [setSec, lookupSec]
  | cons p rest ih =>
    intro k v
    rcases p with ⟨k', v'⟩
    by_cases hk : k' = k
    · subst hk
      simp [setSec, lookupSec]
    · rw [setSec, if_neg hk]
      rw [lookupSec, List.find?]
      rw [show (decide ((k', v').1 = k)) = false by simp [hk]]
      exact ih k v

theorem lookupSec_setSec_other : ∀ (m : SecMap) (k k' : PyStr) (v : List PyStr),
    k' ≠ k → lookupSec (setSec m k v) k' = lookupSec m k' := by
  intro m
  induction m with
  | nil =>
    intro k k' v hne
    simp only [setSec, lookupSec, List.find?]
    rw [show (decide ((k, v).1 = k')) = false by simp; exact fun h => hne h.symm]
  | cons p rest ih =>
    intro k k' v hne
    rcases p with ⟨k1, v1⟩
    by_cases hk : k1 = k
    · subst hk
      rw [setSec, if_pos rfl]
      rw [lookupSec, List.find?, lookupSec, List.find?]
      rw [show (decide ((k1, v).1 = k')) = false by simp; exact fun h => hne h.symm]
    · rw [setSec, if_neg hk]
      by_cases hk2 : k1 = k'
      · subst hk2
        rw [lookupSec, List.find?, lookupSec, List.find?]
        rw [show (decide ((k1, v1).1 = k1)) = true by simp]
      · rw [lookupSec, List.find?, lookupSec, List.find?]
        rw [show (decide ((k1, v1).1 = k')) = false by simp [hk2]]
        exact ih k k' v hne

theorem lookupSec_fold_notmem :
    ∀ (blocks : List (PyStr × List PyStr)) (m : SecMap) (k : PyStr),
      (∀ b ∈ blocks, b.1 ≠ k) →
      lookupSec (blocks.foldl (fun acc b => setSec acc b.1 (b.2.map pyLstrip)) m) k
        = lookupSec m k := by
  intro blocks
  induction blocks with
  | nil => intro m k _; rfl
  | cons b bs ih =>
    intro m k hall
    rw [List.foldl_cons, ih _ k (fun x hx => hall x (by simp [hx]))]
    exact lookupSec_setSec_other m b.1 k _ (fun h => hall b (by simp) h.symm)

theorem lookupSec_fold_mem :
    ∀ (blocks : List (PyStr × List PyStr)) (m : SecMap) (k : PyStr) (es : List PyStr),
      (blocks.map Prod.fst).Nodup → (k, es) ∈ blocks →
      lookupSec (blocks.foldl (fun acc b => setSec acc b.1 (b.2.map pyLstrip)) m) k
        = some (es.map pyLstrip) := by
  intro blocks
  induction blocks with
  | nil => intro m k es _ h; simp at h
  | cons b bs ih =>
    intro m k es hnd hmem
    rw [List.map_cons, List.nodup_cons] at hnd
    rcases List.mem_cons.mp hmem with heq | hmem2
    · subst heq
      rw [List.foldl_cons]
      rw [lookupSec_fold_notmem bs _ k
        (fun x hx hxk => hnd.1 (by rw [← hxk]; exact List.mem_map.mpr ⟨x, hx, rfl⟩))]
      exact lookupSec_setSec_same m k _
    · rw [List.foldl_cons]
      exact ih _ k es hnd.2 hmem2

/-! ## Textual facts about the disassembled blocks -/

theorem dropWhile_ws_space (s : PyStr) :
    List.dropWhile isPyWS (' ' :: s) = List.dropWhile isPyWS s := by
  rw [List.dropWhile_cons, if_pos (by decide)]

theorem pyLstrip_pad (s : PyStr) : pyLstrip (padEntry s) = pyLstrip s := by
  have h : padEntry s = ' ' :: ' ' :: ' ' :: ' ' :: s := rfl
  rw [h, pyLstrip, pyLstrip, dropWhile_ws_space, dropWhile_ws_space,
    dropWhile_ws_space, dropWhile_ws_space]

theorem pyLstrip_idem (s : PyStr) : pyLstrip (pyLstrip s) = pyLstrip s :=
  List.dropWhile_idempotent isPyWS s

theorem pyStrip_pyLstrip (s : PyStr) : pyStrip (pyLstrip s) = pyStrip s := by
  unfold pyStrip
  rw [pyLstrip_idem]

theorem startsIndent_pad (s : PyStr) : startsIndent (padEntry s) = true := rfl

theorem blockParsed_flatten_len (blocks : List (PyStr × List PyStr)) :
    blocks.length ≤ (((blocks.map blockParsed).flatten)).length := by
  induction blocks with
  | nil => simp
  | cons b bs ih =>
    simp only [List.map_cons, List.flatten_cons, List.length_append, List.length_cons,
      blockParsed, List.length_map]
    omega

theorem blockLines_parsed_len (blocks : List (PyStr × List PyStr)) :
    (((blocks.map blockParsed).flatten)).length
      = (((blocks.map blockLines).flatten)).length := by
  induction blocks with
  | nil => rfl
  | cons b bs ih =>
    simp only [List.map_cons, List.flatten_cons, List.length_append, List.length_cons,
      blockParsed, blockLines, List.length_map, ih]

theorem blocksOf_mem_cases {co : PyCode} {b : PyStr × List PyStr} (hb : b ∈ blocksOf co) :
    (co.co_consts.isEmpty = false
      ∧ b = (str "CONSTS", co.co_consts.map (fun c => padEntry (reprV c))))
    ∨ (co.co_names.isEmpty = false ∧ b = (str "NAMES", co.co_names.map padEntry))
    ∨ (co.co_varnames.isEmpty = false ∧ b = (str "VARNAMES", co.co_varnames.map padEntry))
    ∨ (co.co_freevars.isEmpty = false ∧ b = (str "FREEVARS", co.co_freevars.map padEntry))
    ∨ (co.co_cellvars.isEmpty = false ∧ b = (str "CELLVARS", co.co_cellvars.map padEntry)) := by
  simp only [blocksOf, List.mem_append] at hb
  rcases hb with ((((hb | hb) | hb) | hb) | hb) <;> split at hb <;> simp_all

theorem blocksOf_keys_nodup (co : PyCode) : ((blocksOf co).map Prod.fst).Nodup := by
  unfold blocksOf
  split_ifs <;> simp <;> decide

theorem blocksOf_suffix (co : PyCode) :
    ∀ b ∈ blocksOf co, pyRemoveSuffix b.1 (str ":") = b.1 := by
  intro b hb
  rcases blocksOf_mem_cases hb with ⟨_, rfl⟩ | ⟨_, rfl⟩ | ⟨_, rfl⟩ | ⟨_, rfl⟩ | ⟨_, rfl⟩
  · exact (by decide : pyRemoveSuffix (str "CONSTS") (str ":") = str "CONSTS")
  · exact (by decide : pyRemoveSuffix (str "NAMES") (str ":") = str "NAMES")
  · exact (by decide : pyRemoveSuffix (str "VARNAMES") (str ":") = str "VARNAMES")
  · exact (by decide : pyRemoveSuffix (str "FREEVARS") (str ":") = str "FREEVARS")
  · exact (by decide : pyRemoveSuffix (str "CELLVARS") (str ":") = str "CELLVARS")

theorem blocksOf_wf (co : PyCode) :
    ∀ b ∈ blocksOf co, (b.1 ≠ [] ∧ ∀ c ∈ b.1, isUpperU c = true)
      ∧ ∀ e ∈ b.2, startsIndent e = true := by
  have hpad : ∀ (f : Value → PyStr) (l : List Value),
      ∀ e ∈ l.map (fun c => padEntry (f c)), startsIndent e = true := by
    intro f l e he
    rcases List.mem_map.mp he with ⟨x, -, rfl⟩
    exact startsIndent_pad _
  have hpad2 : ∀ (l : List PyStr), ∀ e ∈ l.map padEntry, startsIndent e = true := by
    intro l e he
    rcases List.mem_map.mp he with ⟨x, -, rfl⟩
    exact startsIndent_pad _
  intro b hb
  rcases blocksOf_mem_cases hb with ⟨_, rfl⟩ | ⟨_, rfl⟩ | ⟨_, rfl⟩ | ⟨_, rfl⟩ | ⟨_, rfl⟩
  · exact ⟨(by decide :
      str "CONSTS" ≠ [] ∧ ∀ c ∈ str "CONSTS", isUpperU c = true), hpad _ _⟩
  · exact ⟨(by decide :
      str "NAMES" ≠ [] ∧ ∀ c ∈ str "NAMES", isUpperU c = true), hpad2 _⟩
  · exact ⟨(by decide :
      str "VARNAMES" ≠ [] ∧ ∀ c ∈ str "VARNAMES", isUpperU c = true), hpad2 _⟩
  · exact ⟨(by decide :
      str "FREEVARS" ≠ [] ∧ ∀ c ∈ str "FREEVARS", isUpperU c = true), hpad2 _⟩
  · exact ⟨(by decide :
      str "CELLVARS" ≠ [] ∧ ∀ c ∈ str "CELLVARS", isUpperU c = true), hpad2 _⟩

theorem blocksOf_mem_consts {co : PyCode} (h : co.co_consts.isEmpty = false) :
    (str "CONSTS", co.co_consts.map (fun c => padEntry (reprV c))) ∈ blocksOf co := by
  simp [blocksOf, h]

theorem blocksOf_mem_names {co : PyCode} (h : co.co_names.isEmpty = false) :
    (str "NAMES", co.co_names.map padEntry) ∈ blocksOf co := by
  simp [blocksOf, h]

theorem blocksOf_mem_varnames {co : PyCode} (h : co.co_varnames.isEmpty = false) :
    (str "VARNAMES", co.co_varnames.map padEntry) ∈ blocksOf co := by
  simp [blocksOf, h]

theorem blocksOf_mem_freevars {co : PyCode} (h : co.co_freevars.isEmpty = false) :
    (str "FREEVARS", co.co_freevars.map padEntry) ∈ blocksOf co := by
  simp [blocksOf, h]

theorem blocksOf_no_consts {co : PyCode} (h : co.co_consts.isEmpty = true) :
    ∀ b ∈ blocksOf co, b.1 ≠ str "CONSTS" := by
  intro b hb
  rcases blocksOf_mem_cases hb with ⟨he, rfl⟩ | ⟨_, rfl⟩ | ⟨_, rfl⟩ | ⟨_, rfl⟩ | ⟨_, rfl⟩
  · exact Bool.noConfusion (he.symm.trans h)
  · exact (by decide : str "NAMES" ≠ str "CONSTS")
  · exact (by decide : str "VARNAMES" ≠ str "CONSTS")
  · exact (by decide : str "FREEVARS" ≠ str "CONSTS")
  · exact (by decide : str "CELLVARS" ≠ str "CONSTS")

theorem blocksOf_no_names {co : PyCode} (h : co.co_names.isEmpty = true) :
    ∀ b ∈ blocksOf co, b.1 ≠ str "NAMES" := by
  intro b hb
  rcases blocksOf_mem_cases hb with ⟨_, rfl⟩ | ⟨he, rfl⟩ | ⟨_, rfl⟩ | ⟨_, rfl⟩ | ⟨_, rfl⟩
  · exact (by decide : str "CONSTS" ≠ str "NAMES")
  · exact Bool.noConfusion (he.symm.trans h)
  · exact (by decide : str "VARNAMES" ≠ str "NAMES")
  · exact (by decide : str "FREEVARS" ≠ str "NAMES")
  · exact (by decide : str "CELLVARS" ≠ str "NAMES")

theorem blocksOf_no_varnames {co : PyCode} (h : co.co_varnames.isEmpty = true) :
    ∀ b ∈ blocksOf co, b.1 ≠ str "VARNAMES" := by
  intro b hb
  rcases blocksOf_mem_cases hb with ⟨_, rfl⟩ | ⟨_, rfl⟩ | ⟨he, rfl⟩ | ⟨_, rfl⟩ | ⟨_, rfl⟩
  · exact (by decide : str "CONSTS" ≠ str "VARNAMES")
  · exact (by decide : str "NAMES" ≠ str "VARNAMES")
  · exact Bool.noConfusion (he.symm.trans h)
  · exact (by decide : str "FREEVARS" ≠ str "VARNAMES")
  · exact (by decide : str "CELLVARS" ≠ str "VARNAMES")

theorem blocksOf_no_freevars {co : PyCode} (h : co.co_freevars.isEmpty = true) :
    ∀ b ∈ blocksOf co, b.1 ≠ str "FREEVARS" := by
  intro b hb
  rcases blocksOf_mem_cases hb with ⟨_, rfl⟩ | ⟨_, rfl⟩ | ⟨_, rfl⟩ | ⟨he, rfl⟩ | ⟨_, rfl⟩
  · exact (by decide : str "CONSTS" ≠ str "FREEVARS")
  · exact (by decide : str "NAMES" ≠ str "FREEVARS")
  · exact (by decide : str "VARNAMES" ≠ str "FREEVARS")
  · exact Bool.noConfusion (he.symm.trans h)
  · exact (by decide : str "CELLVARS" ≠ str "FREEVARS")

/-! ## The declared-constants fold on stable reprs -/

theorem constDeclStep_roundtrip {done : List Value} {c : Value}
    (hr : reprRoundtrips c) (hneg : idx done c = -1) :
    constDeclStep done (reprV c) = done ++ [c] := by
  rw [constDeclStep.eq_def]
  split
  · rename_i heq
    exact absurd (by rw [heq]; rfl) hr.2.1
  · simp only [hr.2.2]
    rw [if_pos hneg]

theorem constDecl_fold_roundtrip :
    ∀ (rest done : List Value),
      (done ++ rest).Pairwise (fun a b => eq a b = false) →
      (∀ c ∈ rest, reprRoundtrips c) →
      (rest.map reprV).foldl constDeclStep done = done ++ rest := by
  intro rest
  induction rest with
  | nil => intro done _ _; simp
  | cons c cs ih =>
    intro done hpw hall
    have hneg : idx done c = -1 := by
      rw [idx_neg_iff]
      intro y hy
      have hyx : eq y c = false :=
        (List.pairwise_append.mp hpw).2.2 y hy c (by simp)
      rw [eq_symm]
      exact hyx
    rw [List.map_cons, List.foldl_cons,
      constDeclStep_roundtrip (hall c (by simp)) hneg]
    have hpw2 : ((done ++ [c]) ++ cs).Pairwise (fun a b => eq a b = false) := by
      rw [List.append_assoc]
      simpa using hpw
    rw [ih (done ++ [c]) hpw2 (fun x hx => hall x (by simp [hx]))]
    simp

/-! ## The disassembly as declaration blocks plus header tail -/

theorem unparse_blocks (tbl : OpTable) (co : PyCode) :
    unparse tbl co
      = ((blocksOf co).map blockLines).flatten
        ++ (str "FLAGS" ++ ':' :: ' ' :: natToBin co.co_flags)
          :: (str "STACKSIZE" ++ ':' :: ' ' :: natToDigits co.co_stacksize)
          :: [] :: co.co_code.map (instrLine tbl) := by
  have hC : str "CONSTS:" = str "CONSTS" ++ [':'] := by decide
  have hN : str ("NAMES" ++ ":") = str "NAMES" ++ [':'] := by decide
  have hN2 : str "NAMES:" = str "NAMES" ++ [':'] := by decide
  have hV : str ("VARNAMES" ++ ":") = str "VARNAMES" ++ [':'] := by decide
  have hV2 : str "VARNAMES:" = str "VARNAMES" ++ [':'] := by decide
  have hFr : str ("FREEVARS" ++ ":") = str "FREEVARS" ++ [':'] := by decide
  have hFr2 : str "FREEVARS:" = str "FREEVARS" ++ [':'] := by decide
  have hCe : str ("CELLVARS" ++ ":") = str "CELLVARS" ++ [':'] := by decide
  have hCe2 : str "CELLVARS:" = str "CELLVARS" ++ [':'] := by decide
  have hF : (str "FLAGS: " ++ natToBin co.co_flags)
      = str "FLAGS" ++ ':' :: ' ' :: natToBin co.co_flags := by
    rw [show str "FLAGS: " = str "FLAGS" ++ [':', ' '] by decide, List.append_assoc]
    rfl
  have hS : (str "STACKSIZE: " ++ natToDigits co.co_stacksize)
      = str "STACKSIZE" ++ ':' :: ' ' :: natToDigits co.co_stacksize := by
    rw [show str "STACKSIZE: " = str "STACKSIZE" ++ [':', ' '] by decide,
      List.append_assoc]
    rfl
  have hI : co.co_code.map (fun p =>
      if tbl.haveArgument ≤ p.1 || p.2 ≠ 0 then
        tbl.opname p.1 ++ str " %" ++ natToDigits p.2
      else tbl.opname p.1) = co.co_code.map (instrLine tbl) := rfl
  have hPc : co.co_consts.map (fun x => str "    " ++ reprV x)
      = co.co_consts.map (fun c => padEntry (reprV c)) := rfl
  have hPn : co.co_names.map (fun x => str "    " ++ x) = co.co_names.map padEntry := rfl
  have hPv : co.co_varnames.map (fun x => str "    " ++ x)
      = co.co_varnames.map padEntry := rfl
  have hPf : co.co_freevars.map (fun x => str "    " ++ x)
      = co.co_freevars.map padEntry := rfl
  have hPe : co.co_cellvars.map (fun x => str "    " ++ x)
      = co.co_cellvars.map padEntry := rfl
  unfold unparse blocksOf
  by_cases h1 : co.co_consts.isEmpty <;> by_cases h2 : co.co_names.isEmpty <;>
    by_cases h3 : co.co_varnames.isEmpty <;> by_cases h4 : co.co_freevars.isEmpty <;>
      by_cases h5 : co.co_cellvars.isEmpty <;>
    simp [sectionBlock, blockLines, padEntry, instrLine, h1, h2, h3, h4, h5,
      hC, hN, hN2, hV, hV2, hFr, hFr2, hCe, hCe2, hF, hS, hI, hPc, hPn, hPv, hPf, hPe]

theorem parse_unparse (tbl : OpTable) (co : PyCode) :
    parse (unparse tbl co)
      = ((blocksOf co).map blockParsed).flatten
        ++ (⟨TokKind.sect, str "FLAGS"⟩ :: ⟨TokKind.op, str ":"⟩
              :: [⟨TokKind.field, ' ' :: natToBin co.co_flags⟩])
          :: (⟨TokKind.sect, str "STACKSIZE"⟩ :: ⟨TokKind.op, str ":"⟩
              :: [⟨TokKind.field, ' ' :: natToDigits co.co_stacksize⟩])
          :: [] :: co.co_code.map (fun p => tokenizeBody (instrLine tbl p)) := by
  unfold parse
  rw [unparse_blocks]
  rw [headerScan_blocks (blocksOf co) _ 0 (blocksOf_wf co)]
  rw [headerScan_section
    (@sectionMatch_upper (str "FLAGS") (' ' :: natToBin co.co_flags)
      (by decide) (by decide))]
  rw [headerScan_section
    (@sectionMatch_upper (str "STACKSIZE") (' ' :: natToDigits co.co_stacksize)
      (by decide) (by decide))]
  rw [@headerScan_stop [] (by rfl) (by rfl)]
  dsimp only
  simp only [List.isEmpty_cons, Bool.false_eq_true, if_false, Nat.zero_add]
  rw [show (((blocksOf co).map blockLines).flatten).length + 1 + 1
      = (((blocksOf co).map blockLines).flatten).length + 2 from rfl]
  rw [List.drop_append 2]
  rw [show ((str "FLAGS" ++ ':' :: ' ' :: natToBin co.co_flags)
        :: (str "STACKSIZE" ++ ':' :: ' ' :: natToDigits co.co_stacksize)
        :: ([] : PyStr) :: co.co_code.map (instrLine tbl)).drop 2
      = ([] : PyStr) :: co.co_code.map (instrLine tbl) from rfl]
  rw [List.map_cons, show tokenizeBody ([] : PyStr) = ([] : List Token) from rfl,
    List.map_map]
  rw [Function.comp_def]
  simp only [List.append_assoc, List.cons_append, List.nil_append]

/-- C1 (amended): for a code object whose opcodes are table mnemonics
with byte-sized operands, whose constants have stable reprs and are
pairwise non-`eq` (no type-plus-hash collisions), and whose symbol
pools contain stripped names, assembling the disassembled text
reproduces the instruction stream byte-for-byte and all four pools in
order.  Flags and stacksize are not reproduced: the extractor stops
at the inline `FLAGS` section, the `STACKSIZE` header is skipped as a
non-mnemonic body line, and the rebuilt state has no such fields. -/
theorem assemble_unparse_roundtrip (tbl : OpTable) (co : PyCode)
    (hops : ∀ p ∈ co.co_code, validOp tbl p.1 ∧ p.2 < 256)
    (hconsts : ∀ c ∈ co.co_consts, reprRoundtrips c)
    (hcpw : co.co_consts.Pairwise (fun a b => eq a b = false))
    (hnames : ∀ s ∈ co.co_names, pyStrip s = s)
    (hvars : ∀ s ∈ co.co_varnames, pyStrip s = s)
    (hfrees : ∀ s ∈ co.co_freevars, pyStrip s = s) :
    (updateCode tbl (unparse tbl co)).bytecode = flattenPairs co.co_code
    ∧ (updateCode tbl (unparse tbl co)).constants = co.co_consts
    ∧ (updateCode tbl (unparse tbl co)).names = co.co_names
    ∧ (updateCode tbl (unparse tbl co)).varnames = co.co_varnames
    ∧ (updateCode tbl (unparse tbl co)).freevars = co.co_freevars := by
  have hext : extractSections ((parse (unparse tbl co)).length + 1)
        (parse (unparse tbl co)) 0 []
      = (setSec ((blocksOf co).foldl
            (fun acc b => setSec acc b.1 (b.2.map pyLstrip)) [])
          (str "FLAGS") [pyLstrip (' ' :: natToBin co.co_flags)],
        0 + (((blocksOf co).map blockParsed).flatten).length + 1) := by
    rw [parse_unparse]
    exact extract_chain (blocksOf co) _ (str "FLAGS") (' ' :: natToBin co.co_flags)
      _ 0 []
      (by
        have h1 := blockParsed_flatten_len (blocksOf co)
        simp only [List.length_append, List.length_cons]
        omega)
      (blocksOf_suffix co) (by decide)
  have hdrop : (parse (unparse tbl co)).drop
        (0 + (((blocksOf co).map blockParsed).flatten).length + 1)
      = (⟨TokKind.sect, str "STACKSIZE"⟩ :: ⟨TokKind.op, str ":"⟩
            :: [⟨TokKind.field, ' ' :: natToDigits co.co_stacksize⟩])
        :: [] :: co.co_code.map (fun p => tokenizeBody (instrLine tbl p)) := by
    rw [parse_unparse]
    rw [show 0 + (((blocksOf co).map blockParsed).flatten).length + 1
        = (((blocksOf co).map blockParsed).flatten).length + 1 by omega]
    rw [List.drop_append 1]
    rfl
  have hst1 : bodyPass tbl (0 + (((blocksOf co).map blockParsed).flatten).length + 1)
        {} ((parse (unparse tbl co)).drop
          (0 + (((blocksOf co).map blockParsed).flatten).length + 1))
      = ((co.co_code.map (fun p => tokenizeBody (instrLine tbl p))).enumFrom 2).foldl
          (fun s q => bodyStep tbl
            (0 + (((blocksOf co).map blockParsed).flatten).length + 1) s q.1 q.2)
          {} := by
    rw [hdrop]
    unfold bodyPass
    rw [show ((⟨TokKind.sect, str "STACKSIZE"⟩ :: ⟨TokKind.op, str ":"⟩
            :: [⟨TokKind.field, ' ' :: natToDigits co.co_stacksize⟩])
          :: ([] : List Token)
          :: co.co_code.map (fun p => tokenizeBody (instrLine tbl p))).enum
        = (0, ⟨TokKind.sect, str "STACKSIZE"⟩ :: ⟨TokKind.op, str ":"⟩
              :: [⟨TokKind.field, ' ' :: natToDigits co.co_stacksize⟩])
          :: (1, ([] : List Token))
          :: (co.co_code.map (fun p => tokenizeBody (instrLine tbl p))).enumFrom 2
        from rfl]
    rw [List.foldl_cons, List.foldl_cons]
    dsimp only
    rw [bodyStep_sect]
    rfl
  have hfold := bodyFold_instr_lines tbl
    (0 + (((blocksOf co).map blockParsed).flatten).length + 1) co.co_code 2 {} hops
  have hlookC : lookupSec
        (setSec ((blocksOf co).foldl
            (fun acc b => setSec acc b.1 (b.2.map pyLstrip)) [])
          (str "FLAGS") [pyLstrip (' ' :: natToBin co.co_flags)]) (str "CONSTS")
      = if co.co_consts.isEmpty then none else some (co.co_consts.map reprV) := by
    rw [lookupSec_setSec_other _ (str "FLAGS") (str "CONSTS") _ (by decide)]
    by_cases h : co.co_consts.isEmpty
    · rw [if_pos h, lookupSec_fold_notmem _ _ _ (blocksOf_no_consts h)]
      rfl
    · rw [if_neg h]
      rw [lookupSec_fold_mem (blocksOf co) [] (str "CONSTS") _
        (blocksOf_keys_nodup co) (blocksOf_mem_consts (by simpa using h))]
      rw [List.map_map]
      congr 1
      refine List.map_congr_left (fun c hc => ?_)
      show pyLstrip (padEntry (reprV c)) = reprV c
      rw [pyLstrip_pad]
      exact (hconsts c hc).1
  have hlookN : lookupSec
        (setSec ((blocksOf co).foldl
            (fun acc b => setSec acc b.1 (b.2.map pyLstrip)) [])
          (str "FLAGS") [pyLstrip (' ' :: natToBin co.co_flags)]) (str "NAMES")
      = if co.co_names.isEmpty then none else some (co.co_names.map pyLstrip) := by
    rw [lookupSec_setSec_other _ (str "FLAGS") (str "NAMES") _ (by decide)]
    by_cases h : co.co_names.isEmpty
    · rw [if_pos h, lookupSec_fold_notmem _ _ _ (blocksOf_no_names h)]
      rfl
    · rw [if_neg h]
      rw [lookupSec_fold_mem (blocksOf co) [] (str "NAMES") _
        (blocksOf_keys_nodup co) (blocksOf_mem_names (by simpa using h))]
      rw [List.map_map]
      congr 1
  have hlookV : lookupSec
        (setSec ((blocksOf co).foldl
            (fun acc b => setSec acc b.1 (b.2.map pyLstrip)) [])
          (str "FLAGS") [pyLstrip (' ' :: natToBin co.co_flags)]) (str "VARNAMES")
      = if co.co_varnames.isEmpty then none
        else some (co.co_varnames.map pyLstrip) := by
    rw [lookupSec_setSec_other _ (str "FLAGS") (str "VARNAMES") _ (by decide)]
    by_cases h : co.co_varnames.isEmpty
    · rw [if_pos h, lookupSec_fold_notmem _ _ _ (blocksOf_no_varnames h)]
      rfl
    · rw [if_neg h]
      rw [lookupSec_fold_mem (blocksOf co) [] (str "VARNAMES") _
        (blocksOf_keys_nodup co) (blocksOf_mem_varnames (by simpa using h))]
      rw [List.map_map]
      congr 1
  have hlookF : lookupSec
        (setSec ((blocksOf co).foldl
            (fun acc b => setSec acc b.1 (b.2.map pyLstrip)) [])
          (str "FLAGS") [pyLstrip (' ' :: natToBin co.co_flags)]) (str "FREEVARS")
      = if co.co_freevars.isEmpty then none
        else some (co.co_freevars.map pyLstrip) := by
    rw [lookupSec_setSec_other _ (str "FLAGS") (str "FREEVARS") _ (by decide)]
    by_cases h : co.co_freevars.isEmpty
    · rw [if_pos h, lookupSec_fold_notmem _ _ _ (blocksOf_no_freevars h)]
      rfl
    · rw [if_neg h]
      rw [lookupSec_fold_mem (blocksOf co) [] (str "FREEVARS") _
        (blocksOf_keys_nodup co) (blocksOf_mem_freevars (by simpa using h))]
      rw [List.map_map]
      congr 1
  unfold updateCode
  dsimp only
  rw [hext]
  dsimp only
  rw [hst1]
  refine ⟨?_, ?_, ?_, ?_, ?_⟩
  · rw [(applySections_frame _ _).1, hfold.1]
    rfl
  · rw [applySections_constants, hlookC, hfold.2.1]
    by_cases h : co.co_consts.isEmpty
    · rw [if_pos h]
      have hnil : co.co_consts = [] := by simpa using h
      rw [hnil]
      rfl
    · rw [if_neg h]
      show (co.co_consts.map reprV).foldl constDeclStep [] = co.co_consts
      have := constDecl_fold_roundtrip co.co_consts [] (by simpa using hcpw) hconsts
      simpa using this
  · rw [applySections_names, hlookN, hfold.2.2.1]
    by_cases h : co.co_names.isEmpty
    · rw [if_pos h]
      have hnil : co.co_names = [] := by simpa using h
      rw [hnil]
      rfl
    · rw [if_neg h]
      show ([] : List PyStr) ++ (co.co_names.map pyLstrip).map pyStrip = co.co_names
      rw [List.map_map, List.nil_append]
      have hmc : co.co_names.map (pyStrip ∘ pyLstrip)
          = co.co_names.map (fun x => x) := by
        refine List.map_congr_left (fun x hx => ?_)
        show pyStrip (pyLstrip x) = x
        rw [pyStrip_pyLstrip]
        exact hnames x hx
      rw [hmc]
      simp
  · rw [applySections_varnames, hlookV, hfold.2.2.2.1]
    by_cases h : co.co_varnames.isEmpty
    · rw [if_pos h]
      have hnil : co.co_varnames = [] := by simpa using h
      rw [hnil]
      rfl
    · rw [if_neg h]
      show ([] : List PyStr) ++ (co.co_varnames.map pyLstrip).map pyStrip
        = co.co_varnames
      rw [List.map_map, List.nil_append]
      have hmc : co.co_varnames.map (pyStrip ∘ pyLstrip)
          = co.co_varnames.map (fun x => x) := by
        refine List.map_congr_left (fun x hx => ?_)
        show pyStrip (pyLstrip x) = x
        rw [pyStrip_pyLstrip]
        exact hvars x hx
      rw [hmc]
      simp
  · rw [applySections_freevars, hlookF, hfold.2.2.2.2]
    by_cases h : co.co_freevars.isEmpty
    · rw [if_pos h]
      have hnil : co.co_freevars = [] := by simpa using h
      rw [hnil]
      rfl
    · rw [if_neg h]
      show ([] : List PyStr) ++ (co.co_freevars.map pyLstrip).map pyStrip
        = co.co_freevars
      rw [List.map_map, List.nil_append]
      have hmc : co.co_freevars.map (pyStrip ∘ pyLstrip)
          = co.co_freevars.map (fun x => x) := by
        refine List.map_congr_left (fun x hx => ?_)
        show pyStrip (pyLstrip x) = x
        rw [pyStrip_pyLstrip]
        exact hfrees x hx
      rw [hmc]
      simp

/-- C1 counterexample: the code object with constant pool
`[-1, -2]` and body `RETURN_VALUE` does not survive the round trip:
CPython hashes `-1` and `-2` both to `-2`, so `eq (-1) (-2)` holds
and the declared-constants dedup merges the two entries, leaving a
single constant `-1` (the instruction stream itself is reproduced). -/
theorem roundtrip_merges_hash_colliding_constants :
    (updateCode py310 (unparse py310
        ⟨[.vint (-1), .vint (-2)], [], [], [], [], 0, 1, [(83, 0)]⟩)).constants
      = [.vint (-1)]
    ∧ (updateCode py310 (unparse py310
        ⟨[.vint (-1), .vint (-2)], [], [], [], [], 0, 1, [(83, 0)]⟩)).constants
      ≠ [.vint (-1), .vint (-2)]
    ∧ (updateCode py310 (unparse py310
        ⟨[.vint (-1), .vint (-2)], [], [], [], [], 0, 1, [(83, 0)]⟩)).bytecode
      = [83, 0] := by
  decide

/-- C1 witness: a concrete code object (constants `5`, `'hi'`,
`None`; name `print`; varname `n`; three instructions) satisfies the
premises, and the assembled disassembly reproduces its bytecode and
all four pools. -/
theorem assemble_unparse_roundtrip_witness :
    (∀ p ∈ [((100 : Nat), (1 : Nat)), (124, 0), (83, 0)],
        validOp py310 p.1 ∧ p.2 < 256)
    ∧ (updateCode py310 (unparse py310
          ⟨[.vint 5, .vstr (str "hi"), .vnone], [str "print"], [str "n"],
            [], [], 67, 2, [(100, 1), (124, 0), (83, 0)]⟩)).bytecode
        = flattenPairs [(100, 1), (124, 0), (83, 0)]
    ∧ (updateCode py310 (unparse py310
          ⟨[.vint 5, .vstr (str "hi"), .vnone], [str "print"], [str "n"],
            [], [], 67, 2, [(100, 1), (124, 0), (83, 0)]⟩)).constants
        = [.vint 5, .vstr (str "hi"), .vnone]
    ∧ (updateCode py310 (unparse py310
          ⟨[.vint 5, .vstr (str "hi"), .vnone], [str "print"], [str "n"],
            [], [], 67, 2, [(100, 1), (124, 0), (83, 0)]⟩)).names
        = [str "print"]
    ∧ (updateCode py310 (unparse py310
          ⟨[.vint 5, .vstr (str "hi"), .vnone], [str "print"], [str "n"],
            [], [], 67, 2, [(100, 1), (124, 0), (83, 0)]⟩)).varnames
        = [str "n"]
    ∧ (updateCode py310 (unparse py310
          ⟨[.vint 5, .vstr (str "hi"), .vnone], [str "print"], [str "n"],
            [], [], 67, 2, [(100, 1), (124, 0), (83, 0)]⟩)).freevars
        = [] := by
  have h := assemble_unparse_roundtrip py310
    ⟨[.vint 5, .vstr (str "hi"), .vnone], [str "print"], [str "n"],
      [], [], 67, 2, [(100, 1), (124, 0), (83, 0)]⟩
    (by simp only [validOp]; decide)
    (by simp only [reprRoundtrips]; decide)
    (by decide) (by decide) (by decide) (by decide)
  exact ⟨by simp only [validOp]; decide, h.1, h.2.1, h.2.2.1, h.2.2.2.1, h.2.2.2.2⟩

end Lili
